import Mathlib

/-
  Verification development for the Fix Locator and Patch Application Engine
  (src/apply/applyFix.ts).

  Modeling conventions:
  * JS strings are modeled as `Text := List Char`.
  * A VS Code `TextDocument` is modeled as its list of lines (`Document`);
    a well-formed document (`WfDoc`) is nonempty and its lines contain no
    `'\n'` / `'\r'`, i.e. the buffer uses LF line endings.  `docTextOf`
    rebuilds the buffer text (`doc.getText()`).
  * JS numbers used for line arithmetic are modeled as `Int` (the source
    freely forms values like `startLine - 1 - radius` before clamping);
    similarity scores are modeled as `ℚ` (exact arithmetic in place of
    IEEE doubles; all scores involved have tiny denominators).
-/

deriving instance DecidableEq for Except

namespace ApplyFixModel

abbrev Text := List Char

/-- Coerce a Lean string literal to the `List Char` text model. -/
def txt (s : String) : Text := s.data

/-- The whitespace test used by JavaScript `String.prototype.trimEnd` on the
characters that can occur here (the full JS set also contains exotic Unicode
spaces, which never appear in this development). -/
def jsWhitespace (c : Char) : Bool :=
  c = ' ' || c = '\t' || c = '\n' || c = '\r' || c = '\x0b' || c = '\x0c'

/-- JS `s.trimEnd()`. -/
def trimEnd (t : Text) : Text :=
  (t.reverse.dropWhile jsWhitespace).reverse

/-- JS `text.replace(/\r\n/g, "\n")`: one left-to-right pass, replaced text is
not rescanned. -/
def replaceCRLF : Text → Text
  | [] => []
  | '\r' :: '\n' :: t => '\n' :: replaceCRLF t
  | c :: t => c :: replaceCRLF t

/-- JS `s.split("\n")`. -/
def splitLF : Text → List Text
  | [] => [[]]
  | c :: t =>
    if c = '\n' then [] :: splitLF t
    else
      match splitLF t with
      | [] => [[c]]
      | h :: r => (c :: h) :: r

/-- JS `s.split(/\r?\n/)`: a line break is `"\r\n"` or `"\n"`; a lone `'\r'`
is not a break for this regex. -/
def splitRN : Text → List Text
  | [] => [[]]
  | '\r' :: '\n' :: t => [] :: splitRN t
  | c :: t =>
    if c = '\n' then [] :: splitRN t
    else
      match splitRN t with
      | [] => [[c]]
      | h :: r => (c :: h) :: r

/-- `lines.join("\n")`. -/
def intercalateLF : List Text → Text
  | [] => []
  | [l] => l
  | l :: r => l ++ '\n' :: intercalateLF r

/-- `normalizeText` from src/apply/applyFix.ts (lines 93-99): normalize line
endings `\r\n → \n`, split on `\n`, strip trailing whitespace of every line,
rejoin with `\n`. -/
def normalizeText (t : Text) : Text :=
  intercalateLF ((splitLF (replaceCRLF t)).map trimEnd)

/-- Split at every line break, where a break is `"\r\n"`, `"\n"` or a lone
`'\r'`.  This is the line-break rule of the VS Code text buffer, and also the
break rule of a converter that canonicalizes every line-ending style. -/
def splitEOL : Text → List Text
  | [] => [[]]
  | '\r' :: '\n' :: t => [] :: splitEOL t
  | c :: t =>
    if c = '\n' ∨ c = '\r' then [] :: splitEOL t
    else
      match splitEOL t with
      | [] => [[c]]
      | h :: r => (c :: h) :: r

/-! ## Documents, positions, ranges -/

/-- A VS Code text document, as its list of lines.  A well-formed document
(`WfDoc`) is an LF-line-ending buffer: nonempty, no `'\n'`/`'\r'` inside a
line. -/
abbrev Document := List Text

/-- A document given as its list of lines. -/
def docL (xs : List String) : Document := xs.map String.data

def WfDoc (d : Document) : Prop :=
  d ≠ [] ∧ ∀ l ∈ d, ('\n' ∉ l ∧ '\r' ∉ l)

instance : DecidablePred WfDoc := fun d => by
  unfold WfDoc; infer_instance

/-- `doc.getText()` for an LF document. -/
def docTextOf (d : Document) : Text := intercalateLF d

def lineCount (d : Document) : Nat := d.length

/-- `doc.lineAt(i).text`. -/
def lineAt (d : Document) (i : Nat) : Text := d.getD i []

structure Pos where
  line : Nat
  col : Nat
deriving DecidableEq, Repr

def posLe (a b : Pos) : Bool :=
  a.line < b.line || (a.line = b.line && a.col ≤ b.col)

structure Range where
  startP : Pos
  endP : Pos
deriving DecidableEq, Repr

/-- `new vscode.Range(a, b)`: if `a` is after `b` the ends are swapped. -/
def mkRange (a b : Pos) : Range :=
  if posLe a b then ⟨a, b⟩ else ⟨b, a⟩

/-- VS Code position validation: clamp a position into the document (a line
beyond the end becomes the end of the last line; a column beyond a line's
length becomes the line's length). -/
def clampPos (d : Document) (p : Pos) : Pos :=
  if p.line < lineCount d then ⟨p.line, min p.col (lineAt d p.line).length⟩
  else ⟨lineCount d - 1, (lineAt d (lineCount d - 1)).length⟩

/-- Character offset of a (valid) position in the LF buffer text. -/
def posToOff (d : Document) (p : Pos) : Nat :=
  ((d.take p.line).map (fun l => l.length + 1)).sum + p.col

/-- `doc.getText(range)` (the range is validated first). -/
def getTextRange (d : Document) (r : Range) : Text :=
  let s := clampPos d r.startP
  let e := clampPos d r.endP
  ((docTextOf d).take (posToOff d e)).drop (posToOff d s)

/-- Committing `edit.replace(uri, range, repl)`: splice the replacement into
the buffer text and re-split the buffer into lines. -/
def replaceRange (d : Document) (r : Range) (repl : Text) : Document :=
  let s := clampPos d r.startP
  let e := clampPos d r.endP
  splitEOL (((docTextOf d).take (posToOff d s)) ++ repl ++ ((docTextOf d).drop (posToOff d e)))

/-! ## Text search -/

/-- All indices at which `pat` occurs in `t`, ascending.  The source collects
these with repeated `indexOf(pat, idx + 1)`, which for a nonempty `pat`
visits exactly the occurrence positions, overlapping ones included. -/
def allIndexOf (t pat : Text) : List Nat :=
  (List.range (t.length + 1)).filter (fun i => pat.isPrefixOf (t.drop i))

/-- JS `t.indexOf(pat)`, with `-1` modeled as `none`. -/
def jsIndexOf (t pat : Text) : Option Nat :=
  (allIndexOf t pat).head?

def containsSub (t pat : Text) : Bool :=
  (jsIndexOf t pat).isSome

/-! ## Matcher components of src/apply/applyFix.ts -/

structure LineHint where
  startLine : Int
  endLine : Int
deriving DecidableEq, Repr

structure MatchCandidate where
  range : Range
  matchedText : Text
deriving DecidableEq, Repr

/-- `buildRangeFromIndex` (lines 108-129). -/
def buildRangeFromIndex (docText : Text) (idx : Nat) (snippet : Text) : Range :=
  let beforeText := docText.take idx
  let lines := splitRN beforeText
  let startLine := lines.length - 1
  let startCol := (lines.getLastD []).length
  let matchLines := splitRN snippet
  let endLine := startLine + matchLines.length - 1
  let endCol :=
    if matchLines.length = 1 then startCol + (matchLines.headD []).length
    else (matchLines.getLastD []).length
  mkRange ⟨startLine, startCol⟩ ⟨endLine, endCol⟩

/-- `isWithinTolerance` (lines 134-143). -/
def isWithinTolerance (r : Range) (expectedStartLine expectedEndLine tolerance : Int) : Bool :=
  let minExpected : Int := max 0 (expectedStartLine - 1 - tolerance)
  let maxExpected : Int := expectedEndLine - 1 + tolerance
  (r.startP.line : Int) ≤ maxExpected && (r.endP.line : Int) ≥ minExpected

/-- |((a + b) - ((s-1) + (e-1)))| / 2 — equal to the source's
|(a+b)/2 - ((s-1)+(e-1))/2|, written with `mkRat` so that it evaluates by
kernel reduction. -/
def midDistance (a b s e : Int) : ℚ :=
  mkRat ((a + b - (s - 1 + (e - 1))).natAbs) 2

/-- `distanceFromExpected` (lines 148-156). -/
def distanceFromExpected (r : Range) (expectedStartLine expectedEndLine : Int) : ℚ :=
  midDistance r.startP.line r.endP.line expectedStartLine expectedEndLine

/-- Stable insertion: `x` goes in front of the first element it is `le` to. -/
def stableInsert (le : α → α → Bool) (x : α) : List α → List α
  | [] => [x]
  | y :: ys => if le x y then x :: y :: ys else y :: stableInsert le x ys

/-- Stable insertion sort.  For a total preorder the result of any stable
sort is unique, so this models JS `Array.prototype.sort` (stable per
ES2019) with a numeric comparator. -/
def stableSort (le : α → α → Bool) : List α → List α
  | [] => []
  | x :: xs => stableInsert le x (stableSort le xs)

/-- The stable ascending-distance sort the source performs with
`validMatches.sort((a, b) => dist(a) - dist(b))`. -/
def sortByDist (ms : List MatchCandidate) (s e : Int) : List MatchCandidate :=
  stableSort (fun a b =>
    decide (distanceFromExpected a.range s e ≤ distanceFromExpected b.range s e)) ms

/-- The normalized-comparison half of `findSnippetInDocument`
(lines 209-257), reached only when there is no exact occurrence. -/
def findNormalizedInDocument (doc : Document) (expectedSnippet : Text)
    (hint : Option LineHint) : Option MatchCandidate :=
  let docText := docTextOf doc
  let toleranceLines : Int := 50
  let normalizedDoc := normalizeText docText
  let normalizedSnippet := normalizeText expectedSnippet
  if jsIndexOf normalizedDoc normalizedSnippet = none then none
  else
    let docLines := splitRN docText
    let snippetLines := splitLF normalizedSnippet
    let normalizedMatches : List MatchCandidate :=
      (List.range (docLines.length + 1 - snippetLines.length)).filterMap
        (fun startLine =>
          let candidateLines := (docLines.drop startLine).take snippetLines.length
          let candidateNormalized := intercalateLF (candidateLines.map trimEnd)
          if candidateNormalized = normalizedSnippet then
            let endLine := startLine + snippetLines.length - 1
            let range := mkRange ⟨startLine, 0⟩ ⟨endLine, (docLines.getD endLine []).length⟩
            some ⟨range, getTextRange doc range⟩
          else none)
    if normalizedMatches = [] then none
    else
      match hint with
      | some h =>
        let validMatches := normalizedMatches.filter
          (fun m => isWithinTolerance m.range h.startLine h.endLine toleranceLines)
        if validMatches ≠ [] then (sortByDist validMatches h.startLine h.endLine).head?
        else none
      | none => normalizedMatches.head?

/-- `findSnippetInDocument` (lines 168-258): all exact occurrences first;
with a hint they are filtered by the 50-line tolerance band and the closest
survivor wins; with no survivor the function returns `null` (the normalized
half is NOT reached in that case). -/
def findSnippetInDocument (doc : Document) (expectedSnippet : Text)
    (hint : Option LineHint) : Option MatchCandidate :=
  let docText := docTextOf doc
  let toleranceLines : Int := 50
  let exactMatches : List MatchCandidate :=
    (allIndexOf docText expectedSnippet).map
      (fun idx => ⟨buildRangeFromIndex docText idx expectedSnippet, expectedSnippet⟩)
  if exactMatches ≠ [] then
    match hint with
    | some h =>
      let validMatches := exactMatches.filter
        (fun m => isWithinTolerance m.range h.startLine h.endLine toleranceLines)
      if validMatches ≠ [] then (sortByDist validMatches h.startLine h.endLine).head?
      else none
    | none => exactMatches.head?
  else
    findNormalizedInDocument doc expectedSnippet hint

/-- `findSnippetByLineHint` (lines 263-290): windowed normalized search,
radius 100 lines, first match wins. -/
def findSnippetByLineHint (doc : Document) (expectedSnippet : Text)
    (startLine endLine : Int) : Option MatchCandidate :=
  let searchRadius : Int := 100
  let minLine : Nat := (max 0 (startLine - 1 - searchRadius)).toNat
  let maxLine : Int := min ((lineCount doc : Int) - 1) (endLine - 1 + searchRadius)
  let normalizedSnippet := normalizeText expectedSnippet
  let snippetLineCount := (splitLF normalizedSnippet).length
  let starts : List Nat := (List.range (lineCount doc)).filter
    (fun l => decide (minLine ≤ l) && decide ((l : Int) ≤ maxLine - snippetLineCount + 1))
  starts.findSome? (fun (line : Nat) =>
    let candidateEndLine : Nat :=
      (min ((line : Int) + snippetLineCount - 1) ((lineCount doc : Int) - 1)).toNat
    let range := mkRange ⟨line, 0⟩ ⟨candidateEndLine, (lineAt doc candidateEndLine).length⟩
    let text := getTextRange doc range
    if normalizeText text = normalizedSnippet then some ⟨range, text⟩ else none)

def clampQ (n mn mx : ℚ) : ℚ := max mn (min mx n)

/-- `computeLineSimilarityScore` (lines 292-308).  The score
`exact/n + 0.15·b₁ + 0.15·b₂` is written as the equal rational
`(20·exact + 3·n·(b₁+b₂)) / (20·n)` via `mkRat` so that it evaluates by
kernel reduction; the equality with the textbook formula is proved below. -/
def computeLineSimilarityScore (expectedLines candidateLines : List Text) : ℚ :=
  if expectedLines.length = 0 ∨ expectedLines.length ≠ candidateLines.length then 0
  else
    let exact := (expectedLines.zip candidateLines).countP (fun p => decide (p.1 = p.2))
    let bonuses :=
      (if expectedLines.headD [] = candidateLines.headD [] then 1 else 0)
      + (if expectedLines.getLastD [] = candidateLines.getLastD [] then 1 else 0)
    clampQ (mkRat (20 * exact + 3 * expectedLines.length * bonuses) (20 * expectedLines.length)) 0 1

structure FuzzyMatch where
  range : Range
  matchedText : Text
  score : ℚ
deriving DecidableEq, Repr

structure FuzzyBest where
  startLine : Nat
  endLine : Nat
  score : ℚ
  distance : ℚ
deriving DecidableEq, Repr

/-- The size-dependent minimum acceptable fuzzy score (line 332-333). -/
def fuzzyMinScore (snippetLineCount : Nat) : ℚ :=
  if snippetLineCount ≤ 2 then mkRat 19 20
  else if snippetLineCount ≤ 6 then mkRat 4 5
  else if snippetLineCount ≤ 25 then mkRat 7 10
  else mkRat 13 20

/-- The scored record the fuzzy loop builds for the window starting at
`line` (lines 340-351): clamped window end, similarity score of the
trailing-whitespace-stripped window lines, and midpoint distance to the
hint. -/
def fuzzyCandidate (doc : Document) (expectedLines : List Text)
    (startLine endLine : Int) (line : Nat) : FuzzyBest :=
  let snippetLineCount := expectedLines.length
  let candidateEndLine : Nat :=
    (min ((line : Int) + snippetLineCount - 1) ((lineCount doc : Int) - 1)).toNat
  ⟨line, candidateEndLine,
    computeLineSimilarityScore expectedLines
      ((List.range snippetLineCount).map (fun i => trimEnd (lineAt doc (line + i)))),
    midDistance line candidateEndLine startLine endLine⟩

/-- One iteration of the fuzzy search loop (lines 339-356): score the
window starting at `line`, skip it below the minimum score, otherwise keep
the better of it and the best so far (higher score, ties by smaller
midpoint distance). -/
def fuzzyStep (doc : Document) (expectedLines : List Text) (minScore : ℚ)
    (startLine endLine : Int) (best : Option FuzzyBest) (line : Nat) :
    Option FuzzyBest :=
  if (fuzzyCandidate doc expectedLines startLine endLine line).score < minScore then best
  else
    match best with
    | none => some (fuzzyCandidate doc expectedLines startLine endLine line)
    | some b =>
      if (fuzzyCandidate doc expectedLines startLine endLine line).score > b.score
          ∨ ((fuzzyCandidate doc expectedLines startLine endLine line).score = b.score
            ∧ (fuzzyCandidate doc expectedLines startLine endLine line).distance
                < b.distance) then
        some (fuzzyCandidate doc expectedLines startLine endLine line)
      else some b

/-- `findSnippetFuzzyNearLineHint` (lines 316-365): radius 200, best score
wins, ties broken by smaller midpoint distance. -/
def findSnippetFuzzyNearLineHint (doc : Document) (expectedSnippet : Text)
    (startLine endLine : Int) : Option FuzzyMatch :=
  let searchRadius : Int := 200
  let minLine : Nat := (max 0 (startLine - 1 - searchRadius)).toNat
  let maxLine : Int := min ((lineCount doc : Int) - 1) (endLine - 1 + searchRadius)
  let normalizedSnippet := normalizeText expectedSnippet
  let expectedLines := splitLF normalizedSnippet
  let snippetLineCount := expectedLines.length
  -- `split` never returns an empty array, so this guard never fires; kept
  -- for fidelity with the source's early return.
  if snippetLineCount = 0 then none
  else
    let minScore := fuzzyMinScore snippetLineCount
    let starts : List Nat := (List.range (lineCount doc)).filter
      (fun l => decide (minLine ≤ l) && decide ((l : Int) ≤ maxLine - snippetLineCount + 1))
    match starts.foldl (fuzzyStep doc expectedLines minScore startLine endLine) none with
    | none => none
    | some b =>
      let range := mkRange ⟨b.startLine, 0⟩ ⟨b.endLine, (lineAt doc b.endLine).length⟩
      some ⟨range, getTextRange doc range, b.score⟩

/-- `hasReplacementAlreadyApplied` (lines 367-398). -/
def hasReplacementAlreadyApplied (doc : Document) (replacement : Text)
    (hint : Option LineHint) : Bool :=
  let docText := docTextOf doc
  if replacement.length = 0 then false
  else if containsSub docText replacement then true
  else
    let normalizedDoc := normalizeText docText
    let normalizedReplacement := normalizeText replacement
    if normalizedReplacement.length = 0 then false
    else
      match hint with
      | none => containsSub normalizedDoc normalizedReplacement
      | some h =>
        let searchRadius : Int := 200
        let minLine : Nat := (max 0 (h.startLine - 1 - searchRadius)).toNat
        let maxLine : Nat := (min ((lineCount doc : Int) - 1) (h.endLine - 1 + searchRadius)).toNat
        let windowRange := mkRange ⟨minLine, 0⟩ ⟨maxLine, (lineAt doc maxLine).length⟩
        let windowText := getTextRange doc windowRange
        containsSub (normalizeText windowText) normalizedReplacement

/-! ## The Fix data model (src/schema/reviewOutput.ts) and the orchestrator -/

structure Fix where
  id : Text
  title : Text
  filePath : Text
  startLine : Int
  endLine : Int
  replacement : Text
  expectedOriginalSnippet : Option Text
deriving DecidableEq, Repr

structure ApplyFixResult where
  applied : Bool
  reason : Option Text
deriving DecidableEq, Repr

/-- The engine's external collaborators: whether a workspace folder is open,
whether the document opens, and whether the store accepts the edit. -/
structure Env where
  workspaceOpen : Bool
  openOk : Bool
  applyEditOk : Bool
deriving DecidableEq, Repr

abbrev Edit := Range × Text

def msgNoWorkspace : Text := (r"No workspace folder is open.").data
def msgUnableToOpen (filePath : Text) : Text := (r"Unable to open file: ").data ++ filePath
def msgRejected : Text := (r"VS Code rejected the edit.").data
def msgAlreadyApplied : Text := (r"Fix appears to already be applied.").data
def msgNotFound : Text :=
  (r"Could not find the original code snippet in the file. The file may have been modified or this fix was already applied. Please re-run the review.").data
def msgRangeExceeds (s e lc : Int) : Text :=
  (r"Line range ").data ++ (toString s).data ++ ['-'] ++ (toString e).data
    ++ (r" exceeds file length (").data ++ (toString lc).data ++ (r" lines).").data

/-- The snippet search of `applyFix`/`canApplyFix`: line-hinted windowed
search first, then the global search with the hint for tolerance
(lines 414-420 and 508-517). -/
def firstMatch (doc : Document) (snippet : Text) (startLine endLine : Int) :
    Option MatchCandidate :=
  match findSnippetByLineHint doc snippet startLine endLine with
  | some mc => some mc
  | none => findSnippetInDocument doc snippet (some ⟨startLine, endLine⟩)

/-- Strategy 1 of `applyFix` (lines 411-466): snippet-anchored matching. -/
def applyWithSnippet (env : Env) (fix : Fix) (doc : Document) (snippet : Text) :
    Except Text (ApplyFixResult × Document × List Edit) :=
  match firstMatch doc snippet fix.startLine fix.endLine with
  | some mc =>
    if env.applyEditOk then
      .ok (⟨true, none⟩, replaceRange doc mc.range fix.replacement, [(mc.range, fix.replacement)])
    else .ok (⟨false, some msgRejected⟩, doc, [])
  | none =>
    match findSnippetFuzzyNearLineHint doc snippet fix.startLine fix.endLine with
    | some fz =>
      if env.applyEditOk then
        .ok (⟨true, none⟩, replaceRange doc fz.range fix.replacement, [(fz.range, fix.replacement)])
      else .ok (⟨false, some msgRejected⟩, doc, [])
    | none =>
      if hasReplacementAlreadyApplied doc fix.replacement (some ⟨fix.startLine, fix.endLine⟩) then
        .ok (⟨true, some msgAlreadyApplied⟩, doc, [])
      else
        .ok (⟨false, some msgNotFound⟩, doc, [])

/-- The range replaced by strategy 2: lines `max(1,startLine)` to
`max(start,endLine)`, the end clamped to the last line. -/
def lineRangeFor (doc : Document) (fix : Fix) : Range :=
  let start : Int := max 1 fix.startLine
  let e : Int := max start fix.endLine
  let endLineIdx : Nat := (min (e - 1) ((lineCount doc : Int) - 1)).toNat
  mkRange ⟨(start - 1).toNat, 0⟩ ⟨endLineIdx, (lineAt doc endLineIdx).length⟩

/-- Strategy 2 of `applyFix` (lines 468-494): raw line-range replacement. -/
def applyLineRange (env : Env) (fix : Fix) (doc : Document) :
    Except Text (ApplyFixResult × Document × List Edit) :=
  if max (max 1 fix.startLine) fix.endLine > (lineCount doc : Int) then
    .ok (⟨false, some (msgRangeExceeds (max 1 fix.startLine)
        (max (max 1 fix.startLine) fix.endLine) (lineCount doc))⟩, doc, [])
  else if env.applyEditOk then
    .ok (⟨true, none⟩, replaceRange doc (lineRangeFor doc fix) fix.replacement,
      [(lineRangeFor doc fix, fix.replacement)])
  else .ok (⟨false, some msgRejected⟩, doc, [])

/-- `applyFix` (lines 400-494).  The triple carries the structured result,
the document after the call, and the edits committed to the store.
`Except.error` models an exception escaping `applyFix` (the returned promise
rejecting): `const uri = toAbsoluteUri(fix.filePath)` runs before any
try/catch, so with no workspace folder open `getWorkspaceRoot`'s throw
escapes.  An empty `expectedOriginalSnippet` is falsy in
`if (fix.expectedOriginalSnippet)`, so it selects strategy 2 like `null`. -/
def applyFix (env : Env) (fix : Fix) (doc : Document) :
    Except Text (ApplyFixResult × Document × List Edit) :=
  if env.workspaceOpen = false then .error msgNoWorkspace
  else if env.openOk = false then
    .ok (⟨false, some (msgUnableToOpen fix.filePath)⟩, doc, [])
  else
    match fix.expectedOriginalSnippet with
    | some (c :: cs) => applyWithSnippet env fix doc (c :: cs)
    | _ => applyLineRange env fix doc

/-- `canApplyFix` (lines 499-523): `true` without any I/O when there is no
(truthy) snippet; otherwise every throw inside the `try` (no workspace,
unopenable file) is caught and becomes `false`. -/
def canApplyFix (env : Env) (fix : Fix) (doc : Document) : Bool :=
  match fix.expectedOriginalSnippet with
  | some (c :: cs) =>
    if env.workspaceOpen = false || env.openOk = false then false
    else (firstMatch doc (c :: cs) fix.startLine fix.endLine).isSome
  | _ => true

/-! ## Basic facts about line splitting and joining -/

theorem splitLF_ne_nil (t : Text) : splitLF t ≠ [] := by
  match t with
  | [] => simp [splitLF]
  | c :: t =>
    unfold splitLF
    split
    · simp
    · split <;> simp

theorem splitLF_cons_nl (t : Text) : splitLF ('\n' :: t) = [] :: splitLF t := by
  simp [splitLF]

theorem headD_cons_tail {α : Type} (l : List α) (d : α) (h : l ≠ []) :
    l.headD d :: l.tail = l := by
  cases l with
  | nil => exact absurd rfl h
  | cons x xs => rfl

theorem splitLF_cons_of_ne (c : Char) (t : Text) (h : ¬ c = '\n') :
    splitLF (c :: t) = (c :: (splitLF t).headD []) :: (splitLF t).tail := by
  cases hsp : splitLF t with
  | nil => exact absurd hsp (splitLF_ne_nil t)
  | cons x xs =>
    show splitLF (c :: t) = (c :: x) :: xs
    unfold splitLF
    rw [if_neg h, hsp]

theorem splitLF_append_nl (a b : Text) :
    splitLF (a ++ '\n' :: b) = splitLF a ++ splitLF b := by
  induction a with
  | nil => simp [splitLF_cons_nl, splitLF]
  | cons c a ih =>
    by_cases hc : c = '\n'
    · subst hc
      rw [List.cons_append, splitLF_cons_nl, splitLF_cons_nl, ih, List.cons_append]
    · rw [List.cons_append, splitLF_cons_of_ne c _ hc, splitLF_cons_of_ne c _ hc, ih]
      have hne := splitLF_ne_nil a
      cases hsp : splitLF a with
      | nil => exact absurd hsp hne
      | cons x xs => simp

theorem splitLF_no_nl (t : Text) (h : '\n' ∉ t) : splitLF t = [t] := by
  induction t with
  | nil => simp [splitLF]
  | cons c t ih =>
    have hc : ¬ c = '\n' := fun hh => h (hh ▸ List.mem_cons_self c t)
    have ht : '\n' ∉ t := fun hh => h (List.mem_cons_of_mem c hh)
    rw [splitLF_cons_of_ne c t hc, ih ht]
    rfl

theorem not_nl_mem_splitLF (t : Text) (l : Text) (hl : l ∈ splitLF t) : '\n' ∉ l := by
  induction t generalizing l with
  | nil =>
    simp [splitLF] at hl
    simp [hl]
  | cons c t ih =>
    by_cases hc : c = '\n'
    · subst hc
      rw [splitLF_cons_nl] at hl
      rcases List.mem_cons.1 hl with h | h
      · simp [h]
      · exact ih l h
    · rw [splitLF_cons_of_ne c t hc] at hl
      rcases List.mem_cons.1 hl with h | h
      · subst h
        intro hmem
        rcases List.mem_cons.1 hmem with h | h
        · exact hc h.symm
        · have : (splitLF t).headD [] ∈ splitLF t := by
            have hne := splitLF_ne_nil t
            cases hsp : splitLF t with
            | nil => exact absurd hsp hne
            | cons x xs => simp
          exact ih _ this h
      · exact ih l (List.mem_of_mem_tail h)

theorem mem_of_mem_splitLF (t : Text) (l : Text) (c : Char)
    (hl : l ∈ splitLF t) (hc : c ∈ l) : c ∈ t := by
  induction t generalizing l with
  | nil =>
    simp [splitLF] at hl
    subst hl
    exact absurd hc (List.not_mem_nil c)
  | cons d t ih =>
    by_cases hd : d = '\n'
    · subst hd
      rw [splitLF_cons_nl] at hl
      rcases List.mem_cons.1 hl with h | h
      · subst h; exact absurd hc (List.not_mem_nil c)
      · exact List.mem_cons_of_mem _ (ih l h hc)
    · rw [splitLF_cons_of_ne d t hd] at hl
      rcases List.mem_cons.1 hl with h | h
      · subst h
        rcases List.mem_cons.1 hc with h | h
        · exact h ▸ List.mem_cons_self d t
        · refine List.mem_cons_of_mem _ ?_
          have hhead : (splitLF t).headD [] ∈ splitLF t := by
            have hne := splitLF_ne_nil t
            cases hsp : splitLF t with
            | nil => exact absurd hsp hne
            | cons x xs => simp
          exact ih _ hhead h
      · exact List.mem_cons_of_mem _ (ih l (List.mem_of_mem_tail h) hc)

theorem intercalateLF_cons (x : Text) (rest : List Text) (h : rest ≠ []) :
    intercalateLF (x :: rest) = x ++ '\n' :: intercalateLF rest := by
  cases rest with
  | nil => exact absurd rfl h
  | cons y ys => rfl

theorem intercalateLF_splitLF (t : Text) : intercalateLF (splitLF t) = t := by
  induction t with
  | nil => rfl
  | cons c t ih =>
    by_cases hc : c = '\n'
    · subst hc
      rw [splitLF_cons_nl, intercalateLF_cons _ _ (splitLF_ne_nil t), ih]
      rfl
    · rw [splitLF_cons_of_ne c t hc]
      cases hsp : splitLF t with
      | nil => exact absurd hsp (splitLF_ne_nil t)
      | cons x xs =>
        rw [hsp] at ih
        cases xs with
        | nil =>
          simp only [List.headD_cons, List.tail_cons, intercalateLF]
          simpa [intercalateLF] using ih
        | cons y ys =>
          simp only [List.headD_cons, List.tail_cons]
          rw [intercalateLF_cons _ _ (by simp), List.cons_append]
          rw [intercalateLF_cons _ _ (by simp)] at ih
          simpa using ih

theorem splitLF_intercalateLF : ∀ (ls : List Text), ls ≠ [] →
    (∀ l ∈ ls, '\n' ∉ l) → splitLF (intercalateLF ls) = ls := by
  intro ls
  induction ls with
  | nil => intro h _; exact absurd rfl h
  | cons x rest ih =>
    intro _ h2
    cases rest with
    | nil => exact splitLF_no_nl x (h2 x (List.mem_cons_self x []))
    | cons y ys =>
      rw [intercalateLF_cons x _ (by simp), splitLF_append_nl,
        splitLF_no_nl x (h2 x (List.mem_cons_self x (y :: ys))),
        ih (by simp) (fun l hl => h2 l (List.mem_cons_of_mem x hl))]
      rfl

theorem splitRN_ne_nil (t : Text) : splitRN t ≠ [] := by
  rw [splitRN.eq_def]
  split
  · simp
  · simp
  · split
    · simp
    · split <;> simp

theorem splitRN_cons_not_cr (c : Char) (t : Text) (hc : ¬ c = '\r') :
    splitRN (c :: t) =
      (if c = '\n' then [] :: splitRN t
       else (c :: (splitRN t).headD []) :: (splitRN t).tail) := by
  rw [splitRN.eq_def]
  split
  · simp_all
  · rename_i heq; rw [List.cons.injEq] at heq; exact absurd heq.1 hc
  · rename_i c' t' hnotrn heq
    rw [List.cons.injEq] at heq
    obtain ⟨hc', ht'⟩ := heq
    subst hc'; subst ht'
    split
    · rfl
    · cases hsp : splitRN t with
      | nil => exact absurd hsp (splitRN_ne_nil t)
      | cons x xs => rfl

theorem splitRN_eq_splitLF (t : Text) (h : '\r' ∉ t) : splitRN t = splitLF t := by
  induction t with
  | nil => rfl
  | cons c t ih =>
    have hc : ¬ c = '\r' := fun hh => h (hh ▸ List.mem_cons_self c t)
    have ht : '\r' ∉ t := fun hh => h (List.mem_cons_of_mem c hh)
    rw [splitRN_cons_not_cr c t hc, ih ht]
    by_cases hn : c = '\n'
    · subst hn; rw [if_pos rfl, splitLF_cons_nl]
    · rw [if_neg hn, splitLF_cons_of_ne c t hn]

theorem splitEOL_ne_nil (t : Text) : splitEOL t ≠ [] := by
  rw [splitEOL.eq_def]
  split
  · simp
  · simp
  · split
    · simp
    · split <;> simp

theorem splitEOL_cons_not_cr (c : Char) (t : Text) (hc : ¬ c = '\r') :
    splitEOL (c :: t) =
      (if c = '\n' then [] :: splitEOL t
       else (c :: (splitEOL t).headD []) :: (splitEOL t).tail) := by
  rw [splitEOL.eq_def]
  split
  · simp_all
  · rename_i heq; rw [List.cons.injEq] at heq; exact absurd heq.1 hc
  · rename_i c' t' hnotrn heq
    rw [List.cons.injEq] at heq
    obtain ⟨hc', ht'⟩ := heq
    subst hc'; subst ht'
    by_cases hn : c = '\n'
    · rw [if_pos (Or.inl hn), if_pos hn]
    · rw [if_neg (fun hor => hor.elim hn hc), if_neg hn]
      cases hsp : splitEOL t with
      | nil => exact absurd hsp (splitEOL_ne_nil t)
      | cons x xs => rfl

theorem splitEOL_eq_splitLF (t : Text) (h : '\r' ∉ t) : splitEOL t = splitLF t := by
  induction t with
  | nil => rfl
  | cons c t ih =>
    have hc : ¬ c = '\r' := fun hh => h (hh ▸ List.mem_cons_self c t)
    have ht : '\r' ∉ t := fun hh => h (List.mem_cons_of_mem c hh)
    rw [splitEOL_cons_not_cr c t hc, ih ht]
    by_cases hn : c = '\n'
    · subst hn; rw [if_pos rfl, splitLF_cons_nl]
    · rw [if_neg hn, splitLF_cons_of_ne c t hn]

theorem replaceCRLF_cons_not_cr (c : Char) (t : Text) (hc : ¬ c = '\r') :
    replaceCRLF (c :: t) = c :: replaceCRLF t := by
  rw [replaceCRLF.eq_def]
  split
  · simp_all
  · rename_i heq; rw [List.cons.injEq] at heq; exact absurd heq.1 hc
  · rename_i c' t' hnotrn heq
    rw [List.cons.injEq] at heq
    obtain ⟨hc', ht'⟩ := heq
    subst hc'; subst ht'
    rfl

theorem replaceCRLF_eq_self (t : Text) (h : '\r' ∉ t) : replaceCRLF t = t := by
  induction t with
  | nil => rfl
  | cons c t ih =>
    have hc : ¬ c = '\r' := fun hh => h (hh ▸ List.mem_cons_self c t)
    have ht : '\r' ∉ t := fun hh => h (List.mem_cons_of_mem c hh)
    rw [replaceCRLF_cons_not_cr c t hc, ih ht]

theorem replaceCRLF_append_not_cr (a t : Text) (h : '\r' ∉ a) :
    replaceCRLF (a ++ t) = a ++ replaceCRLF t := by
  induction a with
  | nil => rfl
  | cons c a ih =>
    have hc : ¬ c = '\r' := fun hh => h (hh ▸ List.mem_cons_self c a)
    have ha : '\r' ∉ a := fun hh => h (List.mem_cons_of_mem c hh)
    rw [List.cons_append, replaceCRLF_cons_not_cr c _ hc, ih ha, List.cons_append]

theorem mem_intercalateLF (ls : List Text) (c : Char) (h : c ∈ intercalateLF ls) :
    c = '\n' ∨ ∃ l ∈ ls, c ∈ l := by
  induction ls with
  | nil => exact absurd h (List.not_mem_nil c)
  | cons x rest ih =>
    cases rest with
    | nil => exact Or.inr ⟨x, List.mem_cons_self x [], h⟩
    | cons y ys =>
      rw [intercalateLF_cons x _ (by simp)] at h
      rcases List.mem_append.1 h with h | h
      · exact Or.inr ⟨x, List.mem_cons_self x _, h⟩
      · rcases List.mem_cons.1 h with h | h
        · exact Or.inl h
        · rcases ih h with h | ⟨l, hl, hc⟩
          · exact Or.inl h
          · exact Or.inr ⟨l, List.mem_cons_of_mem x hl, hc⟩

/-- A well-formed document's text contains no carriage return. -/
theorem not_cr_docTextOf (d : Document) (hwf : WfDoc d) : '\r' ∉ docTextOf d := by
  intro hmem
  rcases mem_intercalateLF d '\r' hmem with h | ⟨l, hl, hc⟩
  · exact absurd h (by decide)
  · exact (hwf.2 l hl).2 hc

/-! ## Offset arithmetic for the LF buffer -/

/-- Every line followed by a newline, concatenated (a proof-side notion). -/
def joinTrail : List Text → Text
  | [] => []
  | l :: ls => l ++ '\n' :: joinTrail ls

theorem joinTrail_append (a b : List Text) :
    joinTrail (a ++ b) = joinTrail a ++ joinTrail b := by
  induction a with
  | nil => rfl
  | cons x a ih => simp [joinTrail, ih]

theorem length_joinTrail (P : List Text) :
    (joinTrail P).length = ((P.map (fun l => l.length + 1)).sum) := by
  induction P with
  | nil => rfl
  | cons x P ih => simp [joinTrail, ih]; omega

theorem intercalateLF_eq_joinTrail (P rest : List Text) (h : rest ≠ []) :
    intercalateLF (P ++ rest) = joinTrail P ++ intercalateLF rest := by
  induction P with
  | nil => rfl
  | cons x P ih =>
    have hne : P ++ rest ≠ [] := by
      cases rest with
      | nil => exact absurd rfl h
      | cons y ys => simp
    rw [List.cons_append, intercalateLF_cons x _ hne, ih]
    simp [joinTrail]

theorem getLastD_cons_of_cons {α : Type} (x y : α) (ys : List α) (d : α) :
    (x :: y :: ys).getLastD d = (y :: ys).getLastD d := by
  rfl

theorem intercalateLF_eq_dropLast_last (ls : List Text) (h : ls ≠ []) :
    intercalateLF ls = joinTrail ls.dropLast ++ ls.getLastD [] := by
  induction ls with
  | nil => exact absurd rfl h
  | cons x rest ih =>
    cases rest with
    | nil => rfl
    | cons y ys =>
      rw [intercalateLF_cons x _ (by simp), ih (by simp), getLastD_cons_of_cons]
      simp [joinTrail]

theorem posToOff_append (P rest : List Text) (c : Nat) :
    posToOff (P ++ rest) ⟨P.length, c⟩ = (joinTrail P).length + c := by
  unfold posToOff
  rw [length_joinTrail]
  simp [List.take_left]

theorem splitLF_joinTrail_append (P : List Text) (X : Text)
    (h : ∀ l ∈ P, '\n' ∉ l) :
    splitLF (joinTrail P ++ X) = P ++ splitLF X := by
  induction P with
  | nil => rfl
  | cons x P ih =>
    have hx : '\n' ∉ x := h x (List.mem_cons_self x P)
    have hP : ∀ l ∈ P, '\n' ∉ l := fun l hl => h l (List.mem_cons_of_mem x hl)
    show splitLF ((x ++ '\n' :: joinTrail P) ++ X) = (x :: P) ++ splitLF X
    rw [List.append_assoc, List.cons_append, splitLF_append_nl, splitLF_no_nl x hx, ih hP]
    rfl

theorem splitLF_append (a b : Text) :
    splitLF (a ++ b) =
      (splitLF a).dropLast
        ++ ((splitLF a).getLastD [] ++ (splitLF b).headD []) :: (splitLF b).tail := by
  induction a with
  | nil =>
    simp only [List.nil_append]
    show splitLF b = [].dropLast ++ (([] : Text) ++ (splitLF b).headD []) :: (splitLF b).tail
    rw [List.nil_append, List.dropLast_nil, List.nil_append]
    exact (headD_cons_tail _ _ (splitLF_ne_nil b)).symm
  | cons c a ih =>
    by_cases hc : c = '\n'
    · subst hc
      rw [List.cons_append, splitLF_cons_nl, splitLF_cons_nl, ih]
      cases hsp : splitLF a with
      | nil => exact absurd hsp (splitLF_ne_nil a)
      | cons x xs => rfl
    · rw [List.cons_append, splitLF_cons_of_ne c _ hc, splitLF_cons_of_ne c _ hc, ih]
      cases hsp : splitLF a with
      | nil => exact absurd hsp (splitLF_ne_nil a)
      | cons x xs =>
        cases xs with
        | nil => rfl
        | cons y ys => rfl

/-! ## C9: the text normalizer -/

/-- The normalizer described by the claim for C9: every line-ending style —
CRLF, LF and lone CR — converted to the canonical LF, then trailing
whitespace stripped from every line.  (Stated from the claim's words, to be
compared with `normalizeText` from the source.) -/
def normalizeSpecC9 (t : Text) : Text :=
  intercalateLF ((splitEOL t).map trimEnd)

/-- Joining lines with CRLF line endings. -/
def intercalateCRLF : List Text → Text
  | [] => []
  | [l] => l
  | l :: r => l ++ '\r' :: '\n' :: intercalateCRLF r

theorem intercalateCRLF_cons (x : Text) (rest : List Text) (h : rest ≠ []) :
    intercalateCRLF (x :: rest) = x ++ '\r' :: '\n' :: intercalateCRLF rest := by
  cases rest with
  | nil => exact absurd rfl h
  | cons y ys => rfl

theorem replaceCRLF_intercalateCRLF : ∀ (ls : List Text),
    (∀ l ∈ ls, '\r' ∉ l) → replaceCRLF (intercalateCRLF ls) = intercalateLF ls := by
  intro ls
  induction ls with
  | nil => intro _; rfl
  | cons x rest ih =>
    intro h
    cases rest with
    | nil => exact replaceCRLF_eq_self x (h x (List.mem_cons_self x []))
    | cons y ys =>
      rw [intercalateCRLF_cons x _ (by simp),
        replaceCRLF_append_not_cr x _ (h x (List.mem_cons_self x _))]
      show x ++ '\n' :: replaceCRLF (intercalateCRLF (y :: ys))
        = intercalateLF (x :: y :: ys)
      rw [ih (fun l hl => h l (List.mem_cons_of_mem x hl)),
        intercalateLF_cons x _ (by simp)]

theorem trimEnd_prefixOf (l : Text) : trimEnd l <+: l := by
  have h := List.dropWhile_suffix (l := l.reverse) (p := jsWhitespace)
  have h2 := List.reverse_prefix.2 h
  rwa [List.reverse_reverse] at h2

/-- C9 counterexample: `normalizeText` leaves a lone CR inside a line
untouched, while the claimed normalizer (all line-ending styles, including
lone CR, converted to a canonical form) turns it into the canonical LF. -/
theorem C9_normalize_counterexample :
    normalizeText ['a', '\r', 'b'] = ['a', '\r', 'b']
    ∧ normalizeSpecC9 ['a', '\r', 'b'] = ['a', '\n', 'b']
    ∧ normalizeText ['a', '\r', 'b'] ≠ normalizeSpecC9 ['a', '\r', 'b'] := by
  refine ⟨by decide, by decide, by decide⟩

/-- C9 (amended): `normalizeText` is a pure function that converts CRLF line
endings to LF (a document joined with CRLF normalizes exactly as the same
document joined with LF), strips trailing whitespace from every line while
preserving the line structure, and removes only a suffix of each line — so
leading whitespace and blank lines are untouched.  A lone CR that is not at
the end of a line is NOT converted (it survives unchanged, see the
counterexample). -/
theorem C9_normalize :
    (∀ l : Text, trimEnd l <+: l)
    ∧ (∀ ls : List Text, ls ≠ [] → (∀ l ∈ ls, '\n' ∉ l ∧ '\r' ∉ l) →
        normalizeText (intercalateCRLF ls) = normalizeText (intercalateLF ls)
        ∧ splitLF (normalizeText (intercalateLF ls)) = ls.map trimEnd)
    ∧ normalizeText ['a', '\r', 'b'] = ['a', '\r', 'b'] := by
  refine ⟨trimEnd_prefixOf, ?_, by decide⟩
  intro ls hne h
  have hcr : ∀ l ∈ ls, '\r' ∉ l := fun l hl => (h l hl).2
  have hnl : ∀ l ∈ ls, '\n' ∉ l := fun l hl => (h l hl).1
  have hcrT : '\r' ∉ intercalateLF ls := by
    intro hmem
    rcases mem_intercalateLF ls '\r' hmem with hh | ⟨l, hl, hc⟩
    · exact absurd hh (by decide)
    · exact hcr l hl hc
  constructor
  · unfold normalizeText
    rw [replaceCRLF_intercalateCRLF ls hcr, replaceCRLF_eq_self _ hcrT]
  · unfold normalizeText
    rw [replaceCRLF_eq_self _ hcrT, splitLF_intercalateLF ls hne hnl]
    refine splitLF_intercalateLF _ (by simpa using hne) ?_
    intro l hl
    rcases List.mem_map.1 hl with ⟨l0, hl0, rfl⟩
    exact fun hmem => hnl l0 hl0 ((trimEnd_prefixOf l0).subset hmem)

/-- Witness for C9: the amended statement evaluated on the concrete document
`["a ", "", " b"]` (trailing whitespace, a blank line, leading whitespace). -/
theorem C9_normalize_witness :
    trimEnd (txt r"a  ") <+: txt r"a  "
    ∧ (normalizeText (intercalateCRLF (docL ["a ", "", " b"]))
        = normalizeText (intercalateLF (docL ["a ", "", " b"]))
      ∧ splitLF (normalizeText (intercalateLF (docL ["a ", "", " b"])))
        = (docL ["a ", "", " b"]).map trimEnd) :=
  ⟨C9_normalize.1 (txt r"a  "),
    C9_normalize.2.1 (docL ["a ", "", " b"]) (by decide) (by decide)⟩

/-! ## Extracting a full-line window from the buffer -/

theorem joinTrail_eq_ic_append (W : List Text) (h : W ≠ []) :
    joinTrail W = intercalateLF W ++ ['\n'] := by
  induction W with
  | nil => exact absurd rfl h
  | cons x rest ih =>
    cases rest with
    | nil => rfl
    | cons y ys =>
      rw [intercalateLF_cons x _ (by simp)]
      show x ++ '\n' :: joinTrail (y :: ys) = (x ++ '\n' :: intercalateLF (y :: ys)) ++ ['\n']
      rw [ih (by simp)]
      simp

theorem window_decomp (d : Document) (lo hi : Nat) (hlo : lo ≤ hi)
    (hhi : hi < d.length) :
    (d.drop lo).take (hi - lo + 1) = (d.drop lo).take (hi - lo) ++ [lineAt d hi] := by
  rw [List.take_succ]
  congr 1
  have h : (d.drop lo)[hi - lo]? = some (lineAt d hi) := by
    rw [List.getElem?_drop]
    have he : lo + (hi - lo) = hi := by omega
    rw [he]
    rw [List.getElem?_eq_getElem hhi]
    unfold lineAt
    rw [List.getD_eq_getElem d [] hhi]
  rw [h]
  rfl

theorem getLastD_window (d : Document) (lo hi : Nat) (hlo : lo ≤ hi)
    (hhi : hi < d.length) :
    ((d.drop lo).take (hi - lo + 1)).getLastD [] = lineAt d hi := by
  rw [window_decomp d lo hi hlo hhi, List.getLastD_concat]

/-- `doc.getText` of the full-line range `lo .. hi` is the join of those
lines. -/
theorem getText_window (d : Document) (lo hi : Nat) (hlo : lo ≤ hi)
    (hhi : hi < d.length) :
    getTextRange d (mkRange ⟨lo, 0⟩ ⟨hi, (lineAt d hi).length⟩)
      = intercalateLF ((d.drop lo).take (hi - lo + 1)) := by
  have hlc : lo < d.length := lt_of_le_of_lt hlo hhi
  -- the range is already ordered and in bounds
  have hr : mkRange ⟨lo, 0⟩ ⟨hi, (lineAt d hi).length⟩
      = ⟨⟨lo, 0⟩, ⟨hi, (lineAt d hi).length⟩⟩ := by
    unfold mkRange posLe
    rcases Nat.lt_or_ge lo hi with h | h
    · simp [h]
    · have : lo = hi := le_antisymm hlo h
      subst this
      simp
  rw [hr]
  unfold getTextRange
  have hcs : clampPos d ⟨lo, 0⟩ = ⟨lo, 0⟩ := by
    unfold clampPos lineCount
    rw [if_pos hlc]
    simp
  have hce : clampPos d ⟨hi, (lineAt d hi).length⟩ = ⟨hi, (lineAt d hi).length⟩ := by
    unfold clampPos lineCount
    rw [if_pos hhi]
    simp
  rw [hcs, hce]
  -- decompose the document around the window
  set W : List Text := (d.drop lo).take (hi - lo + 1) with hW
  set R2 : List Text := d.drop (hi + 1) with hR2
  have hWne : W ≠ [] := by
    rw [hW]
    apply List.ne_nil_of_length_pos
    rw [List.length_take, List.length_drop]
    exact lt_min_iff.2 ⟨by omega, by omega⟩
  have hsplit1 : d = d.take lo ++ (W ++ R2) := by
    rw [hW, hR2]
    have h1 : d.take lo ++ d.drop lo = d := List.take_append_drop lo d
    have h2 : (d.drop lo).take (hi - lo + 1) ++ (d.drop lo).drop (hi - lo + 1) = d.drop lo :=
      List.take_append_drop _ _
    have h3 : (d.drop lo).drop (hi - lo + 1) = d.drop (hi + 1) := by
      rw [List.drop_drop]
      congr 1
      omega
    rw [← h3]
    rw [h2]
    exact h1.symm
  have hWlast : W.getLastD [] = lineAt d hi := getLastD_window d lo hi hlo hhi
  have htake_hi : d.take hi = d.take lo ++ W.dropLast := by
    have h4 : hi = lo + (hi - lo) := by omega
    have h5 : d.take hi = d.take lo ++ (d.drop lo).take (hi - lo) := by
      conv_lhs => rw [h4]
      rw [List.take_add]
    rw [h5]
    congr 1
    rw [hW, window_decomp d lo hi hlo hhi, List.dropLast_concat]
  set P : List Text := d.take lo with hP
  have ho1 : posToOff d ⟨lo, 0⟩ = (joinTrail P).length := by
    show ((d.take lo).map (fun l => l.length + 1)).sum + 0 = _
    rw [← length_joinTrail, ← hP]
    omega
  have ho2 : posToOff d ⟨hi, (lineAt d hi).length⟩
      = (joinTrail P).length + (intercalateLF W).length := by
    show ((d.take hi).map (fun l => l.length + 1)).sum + (lineAt d hi).length = _
    rw [← length_joinTrail, htake_hi, joinTrail_append, List.length_append,
      intercalateLF_eq_dropLast_last W hWne, List.length_append, hWlast]
    omega
  have hdoc : ∃ Z, docTextOf d = (joinTrail P ++ intercalateLF W) ++ Z := by
    have hd : docTextOf d = intercalateLF (P ++ (W ++ R2)) := by
      show intercalateLF d = _
      conv_lhs => rw [hsplit1]
    cases hR2e : R2 with
    | nil =>
      refine ⟨[], ?_⟩
      rw [hd, hR2e, List.append_nil, List.append_nil,
        intercalateLF_eq_joinTrail P W hWne]
    | cons z zs =>
      refine ⟨'\n' :: intercalateLF (z :: zs), ?_⟩
      rw [hd, hR2e, intercalateLF_eq_joinTrail P _ (by simp),
        intercalateLF_eq_joinTrail W (z :: zs) (by simp),
        joinTrail_eq_ic_append W hWne]
      simp
  obtain ⟨Z, hZ⟩ := hdoc
  show ((docTextOf d).take (posToOff d ⟨hi, (lineAt d hi).length⟩)).drop
      (posToOff d ⟨lo, 0⟩) = intercalateLF W
  rw [hZ, ho1, ho2]
  have hlen : (joinTrail P).length + (intercalateLF W).length
      = (joinTrail P ++ intercalateLF W).length := (List.length_append _ _).symm
  rw [hlen, List.take_left, List.drop_left]

theorem getTextRange_def (d : Document) (r : Range) :
    getTextRange d r
      = ((docTextOf d).take (posToOff d (clampPos d r.endP))).drop
          (posToOff d (clampPos d r.startP)) := rfl

/-- A backwards window (start line past the end of the document, end at the
last line) reads back as the empty text: the constructor swaps the ends and
both validate to the end of the document. -/
theorem getText_swapped_empty (d : Document) (lo : Nat) (hlo : d.length ≤ lo)
    (hne : d ≠ []) :
    getTextRange d (mkRange ⟨lo, 0⟩ ⟨d.length - 1, (lineAt d (d.length - 1)).length⟩)
      = [] := by
  have hpos : 0 < d.length := List.length_pos.2 hne
  have h1 : ¬ lo < d.length - 1 := by omega
  have h2 : ¬ lo = d.length - 1 := by omega
  have hswap : mkRange ⟨lo, 0⟩ ⟨d.length - 1, (lineAt d (d.length - 1)).length⟩
      = ⟨⟨d.length - 1, (lineAt d (d.length - 1)).length⟩, ⟨lo, 0⟩⟩ := by
    unfold mkRange posLe
    simp [h1, h2]
  rw [hswap, getTextRange_def]
  have ha : d.length - 1 < d.length := by omega
  have hb : ¬ lo < d.length := by omega
  have hc1 : clampPos d ⟨d.length - 1, (lineAt d (d.length - 1)).length⟩
      = ⟨d.length - 1, (lineAt d (d.length - 1)).length⟩ := by
    unfold clampPos lineCount
    rw [if_pos ha]
    simp
  have hc2 : clampPos d ⟨lo, 0⟩ = ⟨d.length - 1, (lineAt d (d.length - 1)).length⟩ := by
    unfold clampPos lineCount
    rw [if_neg hb]
  show ((docTextOf d).take (posToOff d (clampPos d ⟨lo, 0⟩))).drop
      (posToOff d (clampPos d ⟨d.length - 1, (lineAt d (d.length - 1)).length⟩)) = []
  rw [hc1, hc2]
  apply List.drop_eq_nil_of_le
  rw [List.length_take]
  exact min_le_left _ _

theorem containsSub_nil_of_ne (pat : Text) (h : pat ≠ []) :
    containsSub [] pat = false := by
  cases pat with
  | nil => exact absurd rfl h
  | cons c cs => rfl

/-! ## C7: the already-applied detector -/

/-- The already-applied detector as the (amended) claim for C7 describes it:
empty replacement → `false`; literal containment → `true`; replacement empty
after normalization → `false`; no hint → normalized containment anywhere in
the document; hint → normalized containment within the window of document
lines `startLine-1-200 .. endLine-1+200` (clamped to the document; the
window is empty when it starts past the last line).  (Stated from the
claim's words, to be compared with `hasReplacementAlreadyApplied`.) -/
def alreadyAppliedSpecC7 (doc : Document) (replacement : Text)
    (hint : Option LineHint) : Bool :=
  if replacement = [] then false
  else if containsSub (docTextOf doc) replacement then true
  else if normalizeText replacement = [] then false
  else
    match hint with
    | none => containsSub (normalizeText (docTextOf doc)) (normalizeText replacement)
    | some h =>
      let lo : Nat := (max 0 (h.startLine - 1 - 200)).toNat
      let hi : Nat := (min ((lineCount doc : Int) - 1) (h.endLine - 1 + 200)).toNat
      containsSub (normalizeText (intercalateLF ((doc.drop lo).take (hi - lo + 1))))
        (normalizeText replacement)

/-- C7 counterexample: for a replacement whose normalization is empty (a
single space) in a document that does not contain it literally and with no
hint, the claim requires `true` exactly when the normalized replacement
occurs in the normalized document — which it does, as the empty string —
but `hasReplacementAlreadyApplied` returns `false`. -/
theorem C7_alreadyApplied_counterexample :
    hasReplacementAlreadyApplied (docL ["ab"]) (txt r" ") none = false
    ∧ txt r" " ≠ []
    ∧ containsSub (docTextOf (docL ["ab"])) (txt r" ") = false
    ∧ containsSub (normalizeText (docTextOf (docL ["ab"]))) (normalizeText (txt r" "))
      = true := by
  refine ⟨by decide, by decide, by decide, by decide⟩

/-- C7 (amended): for every LF document and schema-valid hint,
`hasReplacementAlreadyApplied` returns `false` for an empty replacement,
`true` on literal containment, `false` when the replacement normalizes to
the empty text, and otherwise decides normalized containment — anywhere in
the document without a hint, and within the ±200-line window around the
hint with one. -/
theorem C7_alreadyApplied (doc : Document) (hwf : WfDoc doc) (replacement : Text)
    (hint : Option LineHint)
    (hh : ∀ h : LineHint, hint = some h → 1 ≤ h.startLine ∧ h.startLine ≤ h.endLine) :
    hasReplacementAlreadyApplied doc replacement hint
      = alreadyAppliedSpecC7 doc replacement hint := by
  have hdne : doc ≠ [] := hwf.1
  have hdpos : 0 < doc.length := List.length_pos.2 hdne
  unfold hasReplacementAlreadyApplied alreadyAppliedSpecC7
  by_cases h1 : replacement = []
  · subst h1
    rfl
  · have h1l : ¬ replacement.length = 0 := by
      simpa [List.length_eq_zero] using h1
    rw [if_neg h1l, if_neg h1]
    by_cases h2 : containsSub (docTextOf doc) replacement = true
    · rw [if_pos h2, if_pos h2]
    · rw [if_neg h2, if_neg h2]
      by_cases h3 : normalizeText replacement = []
      · rw [if_pos (by simpa [List.length_eq_zero] using h3), if_pos h3]
      · rw [if_neg (by simpa [List.length_eq_zero] using h3), if_neg h3]
        cases hint with
        | none => rfl
        | some h =>
          obtain ⟨hs1, hse⟩ := hh h rfl
          show containsSub
              (normalizeText (getTextRange doc (mkRange
                ⟨((max 0 (h.startLine - 1 - 200)).toNat : Nat), 0⟩
                ⟨((min ((lineCount doc : Int) - 1) (h.endLine - 1 + 200)).toNat : Nat),
                  (lineAt doc ((min ((lineCount doc : Int) - 1) (h.endLine - 1 + 200)).toNat)).length⟩)))
              (normalizeText replacement)
            = containsSub
              (normalizeText (intercalateLF
                ((doc.drop ((max 0 (h.startLine - 1 - 200)).toNat)).take
                  (((min ((lineCount doc : Int) - 1) (h.endLine - 1 + 200)).toNat)
                    - ((max 0 (h.startLine - 1 - 200)).toNat) + 1))))
              (normalizeText replacement)
          set lo : Nat := (max 0 (h.startLine - 1 - 200)).toNat with hlo
          set hi : Nat := (min ((lineCount doc : Int) - 1) (h.endLine - 1 + 200)).toNat with hhi
          have hhilt : hi < doc.length := by
            have hmin : min ((lineCount doc : Int) - 1) (h.endLine - 1 + 200)
                ≤ (lineCount doc : Int) - 1 := min_le_left _ _
            have := Int.toNat_le_toNat hmin
            unfold lineCount at *
            omega
          by_cases hAB : lo ≤ hi
          · rw [getText_window doc lo hi hAB hhilt]
          · rcases le_total ((lineCount doc : Int) - 1) (h.endLine - 1 + 200) with hm | hm
            · have hieq : hi = doc.length - 1 := by
                rw [hhi, min_eq_left hm]
                unfold lineCount
                omega
              have hlolen : doc.length ≤ lo := by omega
              rw [hieq, getText_swapped_empty doc lo hlolen hdne]
              have hdrop : doc.drop lo = [] := List.drop_eq_nil_of_le hlolen
              rw [hdrop]
              show containsSub (normalizeText []) (normalizeText replacement)
                = containsSub (normalizeText (intercalateLF (List.take _ []))) _
              rw [List.take_nil]
              rfl
            · exfalso
              apply hAB
              rw [hlo, hhi, min_eq_right hm]
              have hle : max 0 (h.startLine - 1 - 200) ≤ h.endLine - 1 + 200 := by
                apply max_le
                · omega
                · omega
              exact Int.toNat_le_toNat hle

/-- Witness for C7: a hinted already-applied query on a small document where
the replacement occurs (up to trailing whitespace) inside the window. -/
theorem C7_alreadyApplied_witness :
    hasReplacementAlreadyApplied (docL ["ab", "cd "]) (txt r"cd") (some ⟨1, 1⟩)
      = alreadyAppliedSpecC7 (docL ["ab", "cd "]) (txt r"cd") (some ⟨1, 1⟩)
    ∧ hasReplacementAlreadyApplied (docL ["ab", "cd "]) (txt r"cd") (some ⟨1, 1⟩) = true :=
  ⟨C7_alreadyApplied (docL ["ab", "cd "]) (by decide) (txt r"cd") (some ⟨1, 1⟩)
      (by intro h hh; cases hh; exact ⟨by decide, by decide⟩),
    by decide⟩

/-! ## C5: the engine's error propagation -/

/-- C5 counterexample: with no workspace folder open,
`toAbsoluteUri` runs before `applyFix`'s try/catch, so the call throws (the
promise rejects) instead of returning a structured `ApplyResult`. -/
theorem C5_noThrow_counterexample :
    applyFix ⟨false, true, true⟩ ⟨txt r"i", txt r"t", txt r"p", 1, 1, txt r"R", none⟩
      (docL ["a"]) = .error msgNoWorkspace := by
  decide

/-- C5 (amended): whenever a workspace folder is open, `applyFix` never
throws: every outcome — unopenable file, snippet not found, rejected edit,
out-of-bounds line range — is a structured result, and every `applied=false`
outcome carries a reason string.  (With no workspace folder open the
workspace-root lookup throws before the engine's error handling begins; see
the counterexample.) -/
theorem C5_noThrow (env : Env) (fix : Fix) (doc : Document)
    (hws : env.workspaceOpen = true) :
    ∃ out, applyFix env fix doc = .ok out
      ∧ (out.1.applied = false → out.1.reason ≠ none) := by
  unfold applyFix
  rw [hws]
  simp only [Bool.true_eq_false, if_false]
  split
  · exact ⟨_, rfl, by simp⟩
  · split
    · rename_i c cs
      unfold applyWithSnippet
      split
      · split
        · exact ⟨_, rfl, by simp⟩
        · exact ⟨_, rfl, by simp⟩
      · split
        · split
          · exact ⟨_, rfl, by simp⟩
          · exact ⟨_, rfl, by simp⟩
        · split
          · exact ⟨_, rfl, by simp⟩
          · exact ⟨_, rfl, by simp⟩
    · unfold applyLineRange
      split
      · exact ⟨_, rfl, by simp⟩
      · split
        · exact ⟨_, rfl, by simp⟩
        · exact ⟨_, rfl, by simp⟩

/-- Witness for C5: the amended statement at a concrete failing call (the
snippet is nowhere in the document), with the result evaluated. -/
theorem C5_noThrow_witness :
    (∃ out, applyFix ⟨true, true, true⟩
        ⟨txt r"i", txt r"t", txt r"p", 1, 1, txt r"R", some (txt r"zz")⟩ (docL ["a"])
        = .ok out ∧ (out.1.applied = false → out.1.reason ≠ none))
    ∧ applyFix ⟨true, true, true⟩
        ⟨txt r"i", txt r"t", txt r"p", 1, 1, txt r"R", some (txt r"zz")⟩ (docL ["a"])
        = .ok (⟨false, some msgNotFound⟩, docL ["a"], []) :=
  ⟨C5_noThrow ⟨true, true, true⟩
      ⟨txt r"i", txt r"t", txt r"p", 1, 1, txt r"R", some (txt r"zz")⟩ (docL ["a"]) rfl,
    by decide⟩

/-! ## C6: mutation counting -/

/-- C6: every `applyFix` call that returns commits exactly one edit when the
result is a plain success (`applied=true`, no reason), and commits no edit
and leaves the document unchanged on every failure and on the idempotent
already-applied success. -/
theorem C6_single_mutation (env : Env) (fix : Fix) (doc : Document)
    (r : ApplyFixResult) (d' : Document) (es : List Edit)
    (hok : applyFix env fix doc = .ok (r, d', es)) :
    (r.applied = true ∧ r.reason = none → es.length = 1)
    ∧ (r.applied = false → es = [] ∧ d' = doc)
    ∧ (r.applied = true ∧ r.reason ≠ none → es = [] ∧ d' = doc) := by
  unfold applyFix applyWithSnippet applyLineRange at hok
  repeat' split at hok
  all_goals first
    | exact Except.noConfusion hok
    | (injection hok with h
       injection h with h1 h2
       injection h2 with h3 h4
       subst h1
       subst h3
       subst h4
       simp)

/-- Witness for C6: the mutation-count facts at a concrete successful call
(the end-to-end scenario of the spec, §8). -/
theorem C6_single_mutation_witness :
    applyFix ⟨true, true, true⟩ ⟨txt r"i", txt r"t", txt r"p", 2, 2, txt r"B", some (txt r"b")⟩
        (docL ["a", "b", "c", "d", "e"])
      = .ok (⟨true, none⟩, docL ["a", "B", "c", "d", "e"],
          [(⟨⟨1, 0⟩, ⟨1, 1⟩⟩, txt r"B")])
    ∧ [((⟨⟨1, 0⟩, ⟨1, 1⟩⟩ : Range), txt r"B")].length = 1 :=
  ⟨by decide,
    (C6_single_mutation ⟨true, true, true⟩
      ⟨txt r"i", txt r"t", txt r"p", 2, 2, txt r"B", some (txt r"b")⟩
      (docL ["a", "b", "c", "d", "e"]) ⟨true, none⟩ (docL ["a", "B", "c", "d", "e"])
      [(⟨⟨1, 0⟩, ⟨1, 1⟩⟩, txt r"B")] (by decide)).1 ⟨rfl, rfl⟩⟩

/-! ## C10: the pre-flight check -/

/-- C10 counterexample: a Fix with `expectedOriginalSnippet = null` whose
document cannot be opened — `canApplyFix` returns `true` (it answers before
any I/O), not `false` as the claim's second half demands for every Fix whose
document cannot be opened. -/
theorem C10_canApply_counterexample :
    canApplyFix ⟨true, false, true⟩ ⟨txt r"i", txt r"t", txt r"p", 1, 1, txt r"R", none⟩
      (docL ["a"]) = true := by
  decide

/-- C10 (amended): with a null snippet `canApplyFix` is `true` for every
environment and document — without opening the document or checking bounds,
hence also when `applyFix` on the same Fix would fail; and for every Fix
with a non-null, nonempty snippet whose workspace or document cannot be
opened, it returns `false` rather than throwing. -/
theorem C10_canApply :
    (∀ (env : Env) (fix : Fix) (doc : Document),
      fix.expectedOriginalSnippet = none → canApplyFix env fix doc = true)
    ∧ (∀ (env : Env) (fix : Fix) (doc : Document) (s : Text),
      fix.expectedOriginalSnippet = some s → s ≠ [] →
      (env.workspaceOpen = false ∨ env.openOk = false) →
      canApplyFix env fix doc = false) := by
  constructor
  · intro env fix doc hsnip
    unfold canApplyFix
    rw [hsnip]
  · intro env fix doc s hsnip hne hclosed
    obtain ⟨c, cs, rfl⟩ := List.exists_cons_of_ne_nil hne
    unfold canApplyFix
    rw [hsnip]
    have hcond : (decide (env.workspaceOpen = false) || decide (env.openOk = false)) = true := by
      rcases hclosed with h | h <;> simp [h]
    show (if (decide (env.workspaceOpen = false) || decide (env.openOk = false)) = true
        then false else (firstMatch doc (c :: cs) fix.startLine fix.endLine).isSome) = false
    rw [if_pos hcond]

/-- Witness for C10: both halves of the amended statement at concrete
inputs; the first input is one where `applyFix` does fail (line range out of
bounds) while `canApplyFix` still answers `true`. -/
theorem C10_canApply_witness :
    canApplyFix ⟨true, true, true⟩ ⟨txt r"i", txt r"t", txt r"p", 100, 200, txt r"R", none⟩
        (docL ["a"]) = true
    ∧ canApplyFix ⟨true, false, true⟩
        ⟨txt r"i", txt r"t", txt r"p", 1, 1, txt r"R", some (txt r"a")⟩ (docL ["a"]) = false :=
  ⟨C10_canApply.1 ⟨true, true, true⟩
      ⟨txt r"i", txt r"t", txt r"p", 100, 200, txt r"R", none⟩ (docL ["a"]) rfl,
    C10_canApply.2 ⟨true, false, true⟩
      ⟨txt r"i", txt r"t", txt r"p", 1, 1, txt r"R", some (txt r"a")⟩ (docL ["a"])
      (txt r"a") rfl (by decide) (Or.inr rfl)⟩

/-! ## C2: idempotent re-application -/

/-- C2 counterexample: `Fix { startLine 1, endLine 1, snippet "a",
replacement "xa" }`.  The first call rewrites `["a"]` to `["xa"]`, which
contains the replacement.  On the second call the snippet `"a"` is still
found (inside `"xa"`), so `applyFix` edits again — it returns `applied=true`
WITHOUT the already-applied reason and mutates the document to `["xxa"]`,
against the claim. -/
theorem C2_idempotence_counterexample :
    applyFix ⟨true, true, true⟩ ⟨txt r"i", txt r"t", txt r"p", 1, 1, txt r"xa", some (txt r"a")⟩
        (docL ["a"])
      = .ok (⟨true, none⟩, docL ["xa"], [(⟨⟨0, 0⟩, ⟨0, 1⟩⟩, txt r"xa")])
    ∧ containsSub (docTextOf (docL ["xa"])) (txt r"xa") = true
    ∧ applyFix ⟨true, true, true⟩ ⟨txt r"i", txt r"t", txt r"p", 1, 1, txt r"xa", some (txt r"a")⟩
        (docL ["xa"])
      = .ok (⟨true, none⟩, docL ["xxa"], [(⟨⟨0, 1⟩, ⟨0, 2⟩⟩, txt r"xa")]) := by
  refine ⟨by decide, by decide, by decide⟩

/-- C2 (amended): a second `applyFix` call is the idempotent no-op the claim
describes provided the mutated document no longer matches the snippet by any
strategy (windowed, global exact/normalized, fuzzy) and the nonempty
replacement it contains is found literally: then the call returns
`applied=true` with the already-applied reason, commits no edit and leaves
the document unchanged.  (When the snippet still matches somewhere in the
mutated document — e.g. the replacement contains the snippet — the second
call edits again; see the counterexample.) -/
theorem C2_idempotence (env : Env) (fix : Fix) (doc : Document) (snippet : Text)
    (hsnip : fix.expectedOriginalSnippet = some snippet) (hne : snippet ≠ [])
    (hws : env.workspaceOpen = true) (hopen : env.openOk = true)
    (hm : firstMatch doc snippet fix.startLine fix.endLine = none)
    (hfz : findSnippetFuzzyNearLineHint doc snippet fix.startLine fix.endLine = none)
    (hcontain : containsSub (docTextOf doc) fix.replacement = true)
    (hrne : fix.replacement ≠ []) :
    applyFix env fix doc = .ok (⟨true, some msgAlreadyApplied⟩, doc, []) := by
  obtain ⟨c, cs, rfl⟩ := List.exists_cons_of_ne_nil hne
  unfold applyFix
  rw [hws, hopen, hsnip, if_neg (by decide : ¬ (true = false)),
    if_neg (by decide : ¬ (true = false))]
  show applyWithSnippet env fix doc (c :: cs) = _
  unfold applyWithSnippet
  rw [hm, hfz]
  have halready : hasReplacementAlreadyApplied doc fix.replacement
      (some ⟨fix.startLine, fix.endLine⟩) = true := by
    unfold hasReplacementAlreadyApplied
    rw [if_neg (by simpa [List.length_eq_zero] using hrne), if_pos hcontain]
  rw [halready]
  rfl

/-- Witness for C2: on the document `["R"]` produced by applying
`Fix { snippet "a", replacement "R" }` to `["a"]`, the second call is the
idempotent no-op. -/
theorem C2_idempotence_witness :
    applyFix ⟨true, true, true⟩ ⟨txt r"i", txt r"t", txt r"p", 1, 1, txt r"R", some (txt r"a")⟩
        (docL ["R"])
      = .ok (⟨true, some msgAlreadyApplied⟩, docL ["R"], []) :=
  C2_idempotence ⟨true, true, true⟩
    ⟨txt r"i", txt r"t", txt r"p", 1, 1, txt r"R", some (txt r"a")⟩ (docL ["R"])
    (txt r"a") rfl (by decide) rfl rfl (by decide) (by decide) (by decide) (by decide)

/-! ## Committing a full-line replacement -/

theorem mem_joinTrail (ls : List Text) (c : Char) (h : c ∈ joinTrail ls) :
    c = '\n' ∨ ∃ l ∈ ls, c ∈ l := by
  induction ls with
  | nil => exact absurd h (List.not_mem_nil c)
  | cons x rest ih =>
    have h2 : c ∈ x ++ '\n' :: joinTrail rest := h
    rcases List.mem_append.1 h2 with h | h
    · exact Or.inr ⟨x, List.mem_cons_self x _, h⟩
    · rcases List.mem_cons.1 h with h | h
      · exact Or.inl h
      · rcases ih h with h | ⟨l, hl, hc⟩
        · exact Or.inl h
        · exact Or.inr ⟨l, List.mem_cons_of_mem x hl, hc⟩

/-- Committing an edit that replaces the full-line range `s .. e` by `repl`
splices the replacement's lines in place of those document lines. -/
theorem replaceRange_lines (d : Document) (hwf : WfDoc d) (s e : Nat) (repl : Text)
    (hse : s ≤ e) (he : e < d.length) (hrepl : '\r' ∉ repl) :
    replaceRange d (mkRange ⟨s, 0⟩ ⟨e, (lineAt d e).length⟩) repl
      = d.take s ++ splitLF repl ++ d.drop (e + 1) := by
  have hlc : s < d.length := lt_of_le_of_lt hse he
  have hr : mkRange ⟨s, 0⟩ ⟨e, (lineAt d e).length⟩
      = ⟨⟨s, 0⟩, ⟨e, (lineAt d e).length⟩⟩ := by
    unfold mkRange posLe
    rcases Nat.lt_or_ge s e with h | h
    · simp [h]
    · have : s = e := le_antisymm hse h
      subst this
      simp
  rw [hr]
  have hcs : clampPos d ⟨s, 0⟩ = ⟨s, 0⟩ := by
    unfold clampPos lineCount
    rw [if_pos hlc]
    simp
  have hce : clampPos d ⟨e, (lineAt d e).length⟩ = ⟨e, (lineAt d e).length⟩ := by
    unfold clampPos lineCount
    rw [if_pos he]
    simp
  set W : List Text := (d.drop s).take (e - s + 1) with hW
  set R2 : List Text := d.drop (e + 1) with hR2
  have hWne : W ≠ [] := by
    rw [hW]
    apply List.ne_nil_of_length_pos
    rw [List.length_take, List.length_drop]
    exact lt_min_iff.2 ⟨by omega, by omega⟩
  have hsplit1 : d = d.take s ++ (W ++ R2) := by
    rw [hW, hR2]
    have h1 : d.take s ++ d.drop s = d := List.take_append_drop s d
    have h2 : (d.drop s).take (e - s + 1) ++ (d.drop s).drop (e - s + 1) = d.drop s :=
      List.take_append_drop _ _
    have h3 : (d.drop s).drop (e - s + 1) = d.drop (e + 1) := by
      rw [List.drop_drop]
      congr 1
      omega
    rw [← h3, h2]
    exact h1.symm
  have hWlast : W.getLastD [] = lineAt d e := getLastD_window d s e hse he
  have htake_e : d.take e = d.take s ++ W.dropLast := by
    have h4 : e = s + (e - s) := by omega
    have h5 : d.take e = d.take s ++ (d.drop s).take (e - s) := by
      conv_lhs => rw [h4]
      rw [List.take_add]
    rw [h5]
    congr 1
    rw [hW, window_decomp d s e hse he, List.dropLast_concat]
  set P : List Text := d.take s with hP
  have ho1 : posToOff d ⟨s, 0⟩ = (joinTrail P).length := by
    show ((d.take s).map (fun l => l.length + 1)).sum + 0 = _
    rw [← length_joinTrail, ← hP]
    omega
  have ho2 : posToOff d ⟨e, (lineAt d e).length⟩
      = (joinTrail P).length + (intercalateLF W).length := by
    show ((d.take e).map (fun l => l.length + 1)).sum + (lineAt d e).length = _
    rw [← length_joinTrail, htake_e, joinTrail_append, List.length_append,
      intercalateLF_eq_dropLast_last W hWne, List.length_append, hWlast]
    omega
  have hdoc : ∃ Z, docTextOf d = (joinTrail P ++ intercalateLF W) ++ Z
      ∧ splitLF (repl ++ Z) = splitLF repl ++ R2 := by
    have hd : docTextOf d = intercalateLF (P ++ (W ++ R2)) := by
      show intercalateLF d = _
      conv_lhs => rw [hsplit1]
    have hR2nl : ∀ l ∈ R2, '\n' ∉ l := by
      intro l hl
      exact (hwf.2 l (List.mem_of_mem_drop (hR2 ▸ hl))).1
    cases hR2e : R2 with
    | nil =>
      refine ⟨[], ?_, ?_⟩
      · rw [hd, hR2e, List.append_nil, List.append_nil,
          intercalateLF_eq_joinTrail P W hWne]
      · simp
    | cons z zs =>
      refine ⟨'\n' :: intercalateLF (z :: zs), ?_, ?_⟩
      · rw [hd, hR2e, intercalateLF_eq_joinTrail P _ (by simp),
          intercalateLF_eq_joinTrail W (z :: zs) (by simp),
          joinTrail_eq_ic_append W hWne]
        simp
      · rw [splitLF_append_nl,
          splitLF_intercalateLF (z :: zs) (by simp) (hR2e ▸ hR2nl)]
  obtain ⟨Z, hZ, hZ2⟩ := hdoc
  show splitEOL (((docTextOf d).take (posToOff d (clampPos d ⟨s, 0⟩))) ++ repl
      ++ ((docTextOf d).drop (posToOff d (clampPos d ⟨e, (lineAt d e).length⟩))))
      = d.take s ++ splitLF repl ++ d.drop (e + 1)
  rw [hcs, hce, hZ, ho1, ho2]
  have hlen : (joinTrail P).length + (intercalateLF W).length
      = (joinTrail P ++ intercalateLF W).length := (List.length_append _ _).symm
  have htk : ((joinTrail P ++ intercalateLF W) ++ Z).take (joinTrail P).length
      = joinTrail P := by
    rw [List.append_assoc]
    exact List.take_left _ _
  rw [hlen, List.drop_left, htk]
  have hPnl : ∀ l ∈ P, '\n' ∉ l := by
    intro l hl
    exact (hwf.2 l (List.mem_of_mem_take (hP ▸ hl))).1
  have hnocr : '\r' ∉ joinTrail P ++ repl ++ Z := by
    have hdcr : '\r' ∉ docTextOf d := not_cr_docTextOf d hwf
    intro hmem
    rcases List.mem_append.1 hmem with hmem | hmem
    · rcases List.mem_append.1 hmem with hmem | hmem
      · exact hdcr (by
          rw [hZ]
          exact List.mem_append.2 (Or.inl (List.mem_append.2 (Or.inl hmem))))
      · exact hrepl hmem
    · exact hdcr (by
        rw [hZ]
        exact List.mem_append.2 (Or.inr hmem))
  rw [List.append_assoc, splitEOL_eq_splitLF _ (by
      rw [← List.append_assoc]
      exact hnocr),
    splitLF_joinTrail_append P (repl ++ Z) hPnl, hZ2, ← hP, ← hR2]
  rw [List.append_assoc]

/-! ## C8: the line-only fallback -/

/-- C8: with a null snippet (and the document open, the store accepting, and
a schema-valid line range), `applyFix` fails with the `RangeOutOfBounds`
reason exactly when `endLine` exceeds the line count, and otherwise replaces
the literal line range `startLine..endLine` by the replacement's lines and
returns `applied=true` — whatever those lines currently contain. -/
theorem C8_lineRange (env : Env) (fix : Fix) (doc : Document)
    (hwf : WfDoc doc) (hsnip : fix.expectedOriginalSnippet = none)
    (hws : env.workspaceOpen = true) (hopen : env.openOk = true)
    (hedit : env.applyEditOk = true)
    (hs1 : 1 ≤ fix.startLine) (hse : fix.startLine ≤ fix.endLine)
    (hrepl : '\r' ∉ fix.replacement) :
    ((lineCount doc : Int) < fix.endLine →
      applyFix env fix doc = .ok (⟨false,
        some (msgRangeExceeds fix.startLine fix.endLine (lineCount doc))⟩, doc, []))
    ∧ (fix.endLine ≤ (lineCount doc : Int) →
      applyFix env fix doc = .ok (⟨true, none⟩,
        doc.take (fix.startLine - 1).toNat ++ splitLF fix.replacement
          ++ doc.drop fix.endLine.toNat,
        [(lineRangeFor doc fix, fix.replacement)])) := by
  have hmax1 : max 1 fix.startLine = fix.startLine := max_eq_right hs1
  have hmaxB : max fix.startLine fix.endLine = fix.endLine := max_eq_right hse
  have happly : applyFix env fix doc = applyLineRange env fix doc := by
    unfold applyFix
    rw [hws, hopen, hsnip, if_neg (by decide : ¬ (true = false)),
      if_neg (by decide : ¬ (true = false))]
  constructor
  · intro hover
    rw [happly]
    unfold applyLineRange
    rw [if_pos (by rw [hmax1, hmaxB]; exact hover), hmax1, hmaxB]
  · intro hin
    rw [happly]
    unfold applyLineRange
    rw [if_neg (by rw [hmax1, hmaxB]; exact not_lt.2 hin), if_pos hedit]
    have hlc1 : 1 ≤ doc.length := List.length_pos.2 hwf.1
    have hrange : lineRangeFor doc fix
        = mkRange ⟨(fix.startLine - 1).toNat, 0⟩
            ⟨(fix.endLine - 1).toNat, (lineAt doc (fix.endLine - 1).toNat).length⟩ := by
      show mkRange ⟨((max 1 fix.startLine) - 1).toNat, 0⟩
          ⟨((min ((max (max 1 fix.startLine) fix.endLine) - 1)
              ((lineCount doc : Int) - 1)).toNat),
            (lineAt doc ((min ((max (max 1 fix.startLine) fix.endLine) - 1)
              ((lineCount doc : Int) - 1)).toNat)).length⟩ = _
      have hmin : min (fix.endLine - 1) ((lineCount doc : Int) - 1) = fix.endLine - 1 := by
        apply min_eq_left
        unfold lineCount at hin ⊢
        omega
      rw [hmax1, hmaxB, hmin]
    rw [hrange,
      replaceRange_lines doc hwf (fix.startLine - 1).toNat (fix.endLine - 1).toNat
        fix.replacement (by omega) (by unfold lineCount at hin; omega) hrepl,
      ← hrange]
    have hdrop : (fix.endLine - 1).toNat + 1 = fix.endLine.toNat := by omega
    rw [hdrop]

/-- Witness for C8: both halves at concrete calls — an out-of-bounds range
fails with the range reason; an in-bounds range replaces lines 2..3 of a
4-line document regardless of their content. -/
theorem C8_lineRange_witness :
    applyFix ⟨true, true, true⟩ ⟨txt r"i", txt r"t", txt r"p", 2, 9, txt r"R", none⟩
        (docL ["a", "b", "c", "d"])
      = .ok (⟨false, some (msgRangeExceeds 2 9 4)⟩, docL ["a", "b", "c", "d"], [])
    ∧ applyFix ⟨true, true, true⟩ ⟨txt r"i", txt r"t", txt r"p", 2, 3, txt r"R", none⟩
        (docL ["a", "b", "c", "d"])
      = .ok (⟨true, none⟩,
          (docL ["a", "b", "c", "d"]).take 1 ++ splitLF (txt r"R")
            ++ (docL ["a", "b", "c", "d"]).drop 3,
          [(lineRangeFor (docL ["a", "b", "c", "d"])
              ⟨txt r"i", txt r"t", txt r"p", 2, 3, txt r"R", none⟩, txt r"R")]) :=
  ⟨(C8_lineRange ⟨true, true, true⟩ ⟨txt r"i", txt r"t", txt r"p", 2, 9, txt r"R", none⟩
      (docL ["a", "b", "c", "d"]) (by decide) rfl rfl rfl rfl (by decide) (by decide)
      (by decide)).1 (by decide),
    (C8_lineRange ⟨true, true, true⟩ ⟨txt r"i", txt r"t", txt r"p", 2, 3, txt r"R", none⟩
      (docL ["a", "b", "c", "d"]) (by decide) rfl rfl rfl rfl (by decide) (by decide)
      (by decide)).2 (by decide)⟩

/-! ## C4: the fuzzy score and its acceptance thresholds -/

theorem fuzzyStep_score (doc : Document) (expectedLines : List Text) (minScore : ℚ)
    (s e : Int) (best : Option FuzzyBest) (line : Nat) (b : FuzzyBest)
    (hb : ∀ x, best = some x → minScore ≤ x.score)
    (h : fuzzyStep doc expectedLines minScore s e best line = some b) :
    minScore ≤ b.score := by
  unfold fuzzyStep at h
  split at h
  · exact hb b h
  · rename_i hscore
    split at h
    · injection h with h'
      subst h'
      exact le_of_not_lt hscore
    · rename_i b'
      split at h
      · injection h with h'
        subst h'
        exact le_of_not_lt hscore
      · injection h with h'
        subst h'
        exact hb _ rfl

theorem fuzzyFold_score (doc : Document) (expectedLines : List Text) (minScore : ℚ)
    (s e : Int) :
    ∀ (starts : List Nat) (best : Option FuzzyBest),
    (∀ x, best = some x → minScore ≤ x.score) →
    ∀ b, starts.foldl (fuzzyStep doc expectedLines minScore s e) best = some b →
    minScore ≤ b.score := by
  intro starts
  induction starts with
  | nil =>
    intro best hb b h
    exact hb b h
  | cons l ls ih =>
    intro best hb b h
    exact ih _ (fun x hx => fuzzyStep_score doc expectedLines minScore s e best l x hb hx) b h

/-- C4: (i) for a nonempty expected-lines list and a candidate of the same
line count, the similarity score is
`clamp(exact/lineCount + 0.15·[first lines equal] + 0.15·[last lines equal], 0, 1)`
with `exact` the count of positions with equal lines; (ii) a candidate of a
different line count scores 0; (iii) any match returned by the fuzzy
searcher cleared the size-dependent minimum score; (iv) that minimum is
0.95 for ≤2 snippet lines, 0.80 for ≤6, 0.70 for ≤25 and 0.65 otherwise. -/
theorem C4_fuzzy_scoring :
    (∀ expected cand : List Text, expected ≠ [] → expected.length = cand.length →
      computeLineSimilarityScore expected cand
        = clampQ ((((expected.zip cand).countP (fun p => decide (p.1 = p.2)) : ℚ)
              / (expected.length : ℚ))
            + (if expected.headD [] = cand.headD [] then (0.15 : ℚ) else 0)
            + (if expected.getLastD [] = cand.getLastD [] then (0.15 : ℚ) else 0)) 0 1)
    ∧ (∀ expected cand : List Text, expected.length ≠ cand.length →
        computeLineSimilarityScore expected cand = 0)
    ∧ (∀ (doc : Document) (snippet : Text) (s e : Int) (fz : FuzzyMatch),
        findSnippetFuzzyNearLineHint doc snippet s e = some fz →
        fuzzyMinScore (splitLF (normalizeText snippet)).length ≤ fz.score)
    ∧ (∀ n : Nat, fuzzyMinScore n
        = if n ≤ 2 then (0.95 : ℚ) else if n ≤ 6 then (0.8 : ℚ)
          else if n ≤ 25 then (0.7 : ℚ) else (0.65 : ℚ)) := by
  refine ⟨?_, ?_, ?_, ?_⟩
  · intro expected cand hne hlen
    have hn0 : expected.length ≠ 0 := fun h => hne (List.length_eq_zero.1 h)
    have hn : ((expected.length : ℚ)) ≠ 0 := by exact_mod_cast hn0
    have hcond : ¬ (expected.length = 0 ∨ expected.length ≠ cand.length) := by
      push_neg
      exact ⟨hn0, hlen⟩
    have h015 : (0.15 : ℚ) = 3 / 20 := by norm_num
    rcases Classical.em (expected.headD [] = cand.headD []) with h1 | h1 <;>
      rcases Classical.em (expected.getLastD [] = cand.getLastD []) with h2 | h2
    all_goals
      (simp only [computeLineSimilarityScore, h1, h2, eq_self_iff_true, if_true, if_false,
        hcond, ite_false, ite_true]
       congr 1
       rw [Rat.mkRat_eq_divInt, Rat.divInt_eq_div]
       try rw [h015]
       push_cast
       field_simp [hn]
       ring)
  · intro expected cand hlen
    unfold computeLineSimilarityScore
    rw [if_pos (Or.inr hlen)]
  · intro doc snippet s e fz hfz
    simp only [findSnippetFuzzyNearLineHint] at hfz
    split at hfz
    · exact absurd hfz (by simp)
    · split at hfz
      · exact absurd hfz (by simp)
      · rename_i b hfold
        injection hfz with h'
        subst h'
        exact fuzzyFold_score doc (splitLF (normalizeText snippet))
          (fuzzyMinScore (splitLF (normalizeText snippet)).length) s e _ none
          (fun x hx => Option.noConfusion hx) b hfold
  · intro n
    unfold fuzzyMinScore
    split
    · norm_num [Rat.mkRat_eq_divInt, Rat.divInt_eq_div]
    · split
      · norm_num [Rat.mkRat_eq_divInt, Rat.divInt_eq_div]
      · split
        · norm_num [Rat.mkRat_eq_divInt, Rat.divInt_eq_div]
        · norm_num [Rat.mkRat_eq_divInt, Rat.divInt_eq_div]

/-- Witness for C4: the scoring clause at a concrete 3-line pair (2 of 3
lines equal, first and last lines equal — the evaluated score is 29/30),
the mismatched-length clause, and the acceptance clause at a concrete
fuzzy match. -/
theorem C4_fuzzy_scoring_witness :
    computeLineSimilarityScore [txt r"a", txt r"X", txt r"c"] [txt r"a", txt r"b", txt r"c"]
      = clampQ (((([txt r"a", txt r"X", txt r"c"].zip [txt r"a", txt r"b", txt r"c"]).countP
            (fun p => decide (p.1 = p.2)) : ℚ) / (([txt r"a", txt r"X", txt r"c"].length : ℚ)))
          + (if [txt r"a", txt r"X", txt r"c"].headD []
              = [txt r"a", txt r"b", txt r"c"].headD [] then (0.15 : ℚ) else 0)
          + (if [txt r"a", txt r"X", txt r"c"].getLastD []
              = [txt r"a", txt r"b", txt r"c"].getLastD [] then (0.15 : ℚ) else 0)) 0 1
    ∧ computeLineSimilarityScore [txt r"a", txt r"X", txt r"c"] [txt r"a", txt r"b", txt r"c"]
      = mkRat 29 30
    ∧ computeLineSimilarityScore [txt r"a"] [] = 0
    ∧ fuzzyMinScore (splitLF (normalizeText
        (txt r"a" ++ ('\n' :: txt r"b") ++ ('\n' :: txt r"c")))).length ≤ mkRat 29 30 :=
  ⟨C4_fuzzy_scoring.1 [txt r"a", txt r"X", txt r"c"] [txt r"a", txt r"b", txt r"c"]
      (by decide) (by decide),
    by decide,
    C4_fuzzy_scoring.2.1 [txt r"a"] [] (by decide),
    C4_fuzzy_scoring.2.2.1 (docL ["a", "X", "c"])
      (txt r"a" ++ ('\n' :: txt r"b") ++ ('\n' :: txt r"c")) 1 3
      ⟨⟨⟨0, 0⟩, ⟨2, 1⟩⟩, docTextOf (docL ["a", "X", "c"]), mkRat 29 30⟩ (by decide)⟩

/-! ## The range built from an exact occurrence index -/

theorem getD_append_cons {α : Type} (P : List α) (x : α) (R : List α) (d0 : α) :
    (P ++ x :: R).getD P.length d0 = x := by
  induction P with
  | nil => rfl
  | cons p ps ih => simpa using ih

theorem take_append_cons {α : Type} (P : List α) (x : α) (R : List α) :
    (P ++ x :: R).take P.length = P := by
  have h : P.length ≤ P.length := le_refl _
  calc (P ++ x :: R).take P.length = P.take P.length := List.take_append_of_le_length h
    _ = P := by simp

/-- Where `buildRangeFromIndex` puts the range of an occurrence: for a
well-formed document and an occurrence of a nonempty, CR-free snippet at
index `i`, the built range needs no validation clamping and its endpoints
sit exactly at offsets `i` and `i + snippet.length`. -/
theorem buildRange_spec (d : Document) (hwf : WfDoc d) (i : Nat) (s : Text)
    (hne : s ≠ []) (hpre : s <+: ((docTextOf d).drop i)) :
    ∃ p q : Pos,
      buildRangeFromIndex (docTextOf d) i s = ⟨p, q⟩
      ∧ clampPos d p = p ∧ clampPos d q = q
      ∧ posToOff d p = i ∧ posToOff d q = i + s.length := by
  obtain ⟨rest, hrest⟩ := hpre
  have hTcr : '\r' ∉ docTextOf d := not_cr_docTextOf d hwf
  have hdlen : i < (docTextOf d).length := by
    by_contra hcon
    push_neg at hcon
    rw [List.drop_eq_nil_of_le hcon] at hrest
    have := congrArg List.length hrest
    simp at this
    exact hne this.1
  set T : Text := docTextOf d with hT
  set before : Text := T.take i with hbefore
  have hbcr : '\r' ∉ before := fun hmem => hTcr (List.mem_of_mem_take hmem)
  have hscr : '\r' ∉ s := by
    intro hmem
    apply hTcr
    have : '\r' ∈ T.drop i := by
      rw [← hrest]
      exact List.mem_append.2 (Or.inl hmem)
    exact List.mem_of_mem_drop this
  have hblen : before.length = i := by
    rw [hbefore, List.length_take]
    omega
  have hsplitT : T = before ++ (s ++ rest) := by
    rw [hbefore, hrest, List.take_append_drop]
  set B : List Text := splitLF before with hB
  set S : List Text := splitLF s with hS
  have hBne : B ≠ [] := splitLF_ne_nil before
  have hSne : S ≠ [] := splitLF_ne_nil s
  have hBnl : ∀ l ∈ B, '\n' ∉ l := fun l hl => not_nl_mem_splitLF before l hl
  have hSnl : ∀ l ∈ S, '\n' ∉ l := fun l hl => not_nl_mem_splitLF s l hl
  have hsplitRN_before : splitRN before = B := splitRN_eq_splitLF before hbcr
  have hsplitRN_s : splitRN s = S := splitRN_eq_splitLF s hscr
  have hic_B : intercalateLF B = before := intercalateLF_splitLF before
  have hic_S : intercalateLF S = s := intercalateLF_splitLF s
  -- the document's lines in terms of B and the split of (s ++ rest)
  set F : List Text := splitLF (s ++ rest) with hF
  have hd_lines : d = B.dropLast ++ ((B.getLastD [] ++ F.headD []) :: F.tail) := by
    have h1 : splitLF T = d :=
      splitLF_intercalateLF d hwf.1 (fun l hl => (hwf.2 l hl).1)
    rw [← h1, hsplitT, splitLF_append]
  have hFne : F ≠ [] := splitLF_ne_nil _
  -- the start position facts, shared by both cases
  have hi_eq : i = (joinTrail B.dropLast).length + (B.getLastD []).length := by
    have h2 : before.length = (intercalateLF B).length := by rw [hic_B]
    rw [intercalateLF_eq_dropLast_last B hBne, List.length_append] at h2
    omega
  have hstart_line_lt : B.length - 1 < d.length := by
    have := congrArg List.length hd_lines
    rw [List.length_append, List.length_cons, List.length_dropLast] at this
    omega
  have hlineAt_start : lineAt d (B.length - 1) = B.getLastD [] ++ F.headD [] := by
    unfold lineAt
    rw [hd_lines]
    have hlen : B.dropLast.length = B.length - 1 := List.length_dropLast B
    rw [← hlen]
    exact getD_append_cons _ _ _ _
  have htake_start : d.take (B.length - 1) = B.dropLast := by
    rw [hd_lines]
    have hlen : B.dropLast.length = B.length - 1 := List.length_dropLast B
    rw [← hlen]
    exact take_append_cons _ _ _
  have hclamp_start : clampPos d ⟨B.length - 1, (B.getLastD []).length⟩
      = ⟨B.length - 1, (B.getLastD []).length⟩ := by
    unfold clampPos lineCount
    rw [if_pos hstart_line_lt, hlineAt_start]
    simp [min_eq_left, List.length_append]
  have hoff_start : posToOff d ⟨B.length - 1, (B.getLastD []).length⟩ = i := by
    show ((d.take (B.length - 1)).map (fun l => l.length + 1)).sum + (B.getLastD []).length = i
    rw [htake_start, ← length_joinTrail]
    omega
  have hbuild : buildRangeFromIndex T i s
      = mkRange ⟨B.length - 1, (B.getLastD []).length⟩
          ⟨(B.length - 1) + S.length - 1,
            if S.length = 1 then (B.getLastD []).length + (S.headD []).length
            else (S.getLastD []).length⟩ := by
    simp only [buildRangeFromIndex]
    rw [← hbefore, hsplitRN_before, hsplitRN_s]
  have hsF : F = S.dropLast
      ++ ((S.getLastD [] ++ (splitLF rest).headD []) :: (splitLF rest).tail) := by
    rw [hF, splitLF_append, hS]
  by_cases hm : S.length = 1
  · -- single-line snippet
    obtain ⟨x, hx⟩ := List.length_eq_one.1 hm
    have hxs : x = s := by
      have := hic_S
      rw [hx] at this
      exact this
    rw [hxs] at hx
    rw [hx] at hbuild
    have hFhead : F = (s ++ (splitLF rest).headD []) :: (splitLF rest).tail := by
      rw [hsF, hx]
      rfl
    refine ⟨⟨B.length - 1, (B.getLastD []).length⟩,
      ⟨B.length - 1, (B.getLastD []).length + s.length⟩, ?_, hclamp_start, ?_, hoff_start, ?_⟩
    · rw [hbuild]
      unfold mkRange
      rw [if_pos (by
        unfold posLe
        simp)]
      simp
    · -- clamp of the end position
      have hlineAt : lineAt d (B.length - 1) = B.getLastD [] ++ s ++ (splitLF rest).headD [] := by
        rw [hlineAt_start, hFhead]
        simp
      unfold clampPos lineCount
      rw [if_pos hstart_line_lt, hlineAt]
      simp only [List.length_append, Pos.mk.injEq, true_and]
      omega
    · show ((d.take (B.length - 1)).map (fun l => l.length + 1)).sum
          + ((B.getLastD []).length + s.length) = i + s.length
      have h0 : ((d.take (B.length - 1)).map (fun l => l.length + 1)).sum
          + (B.getLastD []).length = i := hoff_start
      omega
  · -- multi-line snippet
    cases hScase : S with
    | nil => exact absurd hScase hSne
    | cons x S1 =>
      cases hS1 : S1 with
      | nil =>
        rw [hScase, hS1] at hm
        exact absurd rfl hm
      | cons y ys =>
        have hSxy : S = x :: y :: ys := by rw [hScase, hS1]
        have hdl_ne : (y :: ys).dropLast.length = ys.length := by
          rw [List.length_dropLast]
          rfl
        set SL : Text := S.getLastD [] with hSL
        set Rh : Text := (splitLF rest).headD [] with hRh
        set Rt : List Text := (splitLF rest).tail with hRt
        have hSdrop : S.dropLast = x :: (y :: ys).dropLast := by
          rw [hSxy]
          rfl
        set P2 : List Text := B.dropLast ++ (B.getLastD [] ++ x) :: (y :: ys).dropLast
          with hP2
        have hd2 : d = P2 ++ (SL ++ Rh) :: Rt := by
          rw [hd_lines, hsF, hSdrop, hP2]
          simp
        have hP2len : P2.length = B.length - 1 + S.length - 1 := by
          rw [hP2, List.length_append, List.length_cons, List.length_dropLast, hdl_ne, hSxy]
          simp
        have hq_line_lt : B.length - 1 + S.length - 1 < d.length := by
          have := congrArg List.length hd2
          rw [List.length_append, List.length_cons, hP2len] at this
          omega
        have hlineAt_end : lineAt d (B.length - 1 + S.length - 1) = SL ++ Rh := by
          unfold lineAt
          rw [hd2, ← hP2len]
          exact getD_append_cons _ _ _ _
        have htake_end : d.take (B.length - 1 + S.length - 1) = P2 := by
          rw [hd2, ← hP2len]
          exact take_append_cons _ _ _
        -- length bookkeeping
        have hslen : s.length = x.length + 1
            + (joinTrail (y :: ys).dropLast).length + SL.length := by
          have h1 : s.length = (intercalateLF S).length := by rw [hic_S]
          rw [hSxy, intercalateLF_cons x _ (by simp),
            intercalateLF_eq_dropLast_last (y :: ys) (by simp)] at h1
          have hSL2 : (y :: ys).getLastD [] = SL := by
            rw [hSL, hSxy]
            cases ys <;> rfl
          rw [hSL2] at h1
          simp [List.length_append] at h1
          omega
        refine ⟨⟨B.length - 1, (B.getLastD []).length⟩,
          ⟨B.length - 1 + S.length - 1, SL.length⟩, ?_, hclamp_start, ?_, hoff_start, ?_⟩
        · rw [hbuild]
          unfold mkRange
          rw [if_pos (by
            unfold posLe
            have hlt : B.length - 1 < B.length - 1 + S.length - 1 := by
              rw [hSxy]
              simp
            simp [hlt])]
          rw [if_neg hm]
        · unfold clampPos lineCount
          rw [if_pos hq_line_lt, hlineAt_end]
          simp only [List.length_append, Pos.mk.injEq, true_and]
          omega
        · show ((d.take (B.length - 1 + S.length - 1)).map (fun l => l.length + 1)).sum
              + SL.length = i + s.length
          rw [htake_end, ← length_joinTrail, hP2, joinTrail_append]
          have hjt : joinTrail ((B.getLastD [] ++ x) :: (y :: ys).dropLast)
              = (B.getLastD [] ++ x) ++ '\n' :: joinTrail ((y :: ys).dropLast) := rfl
          rw [hjt]
          simp only [List.length_append, List.length_cons]
          omega

/-! ## C1: exact-match determinism -/

/-- With a unique exact occurrence surviving the tolerance filter,
`findSnippetInDocument` returns it. -/
theorem findSnippet_unique_exact (doc : Document) (snippet : Text) (i : Nat) (h : LineHint)
    (hunique : allIndexOf (docTextOf doc) snippet = [i])
    (htol : isWithinTolerance (buildRangeFromIndex (docTextOf doc) i snippet)
      h.startLine h.endLine 50 = true) :
    findSnippetInDocument doc snippet (some h)
      = some ⟨buildRangeFromIndex (docTextOf doc) i snippet, snippet⟩ := by
  simp only [findSnippetInDocument, hunique, List.map_cons, List.map_nil]
  rw [if_pos (by simp)]
  show (if ([(⟨buildRangeFromIndex (docTextOf doc) i snippet, snippet⟩ : MatchCandidate)].filter
      (fun m => isWithinTolerance m.range h.startLine h.endLine 50)) ≠ [] then
      (sortByDist ([(⟨buildRangeFromIndex (docTextOf doc) i snippet, snippet⟩ :
        MatchCandidate)].filter
        (fun m => isWithinTolerance m.range h.startLine h.endLine 50)) h.startLine
        h.endLine).head?
    else none) = _
  rw [List.filter_cons, if_pos htol, List.filter_nil]
  rw [if_pos (by simp)]
  rfl

def dC1 : Document := docL ["a ", "b", "f2", "f3", "f4", "a", "b"]

def sC1 : Text := txt r"a" ++ '\n' :: txt r"b"

def fixC1 : Fix := ⟨txt r"i", txt r"t", txt r"p", 1, 2, txt r"R", some sC1⟩

/-- C1: the claim is FALSE as stated.  `dC1` contains exactly one literal
occurrence of the snippet `"a\nb"` (at offset 14, document lines 5-6), yet
`applyFix` with the hint (1,2) replaces the normalized windowed match at
lines 0-1 (whose first line `"a "` carries a trailing space) — the windowed
search of step (a) normalizes before comparing, so it fires before the
global exact search ever sees the unique literal occurrence.  The resulting
document differs from the one obtained by replacing the literal occurrence. -/
theorem C1_exact_match_counterexample :
    allIndexOf (docTextOf dC1) sC1 = [14]
    ∧ applyFix ⟨true, true, true⟩ fixC1 dC1
        = .ok (⟨true, none⟩, docL ["R", "f2", "f3", "f4", "a", "b"],
            [(⟨⟨0, 0⟩, ⟨1, 1⟩⟩, txt r"R")])
    ∧ docTextOf (docL ["R", "f2", "f3", "f4", "a", "b"])
        ≠ (docTextOf dC1).take 14 ++ txt r"R" ++ (docTextOf dC1).drop (14 + sC1.length) := by
  decide

/-- C1 (amended): exact-match determinism holds once the windowed
normalized search finds nothing and the unique literal occurrence lies
within the 50-line tolerance band of the hint: `applyFix` then replaces
exactly that occurrence with the replacement and reports `applied = true`.
(Without those side conditions the windowed normalized search can preempt
the literal occurrence, or the tolerance filter can discard it.) -/
theorem C1_exact_match (env : Env) (fix : Fix) (doc : Document) (snippet : Text) (i : Nat)
    (hwf : WfDoc doc)
    (hsnip : fix.expectedOriginalSnippet = some snippet) (hne : snippet ≠ [])
    (hws : env.workspaceOpen = true) (hopen : env.openOk = true)
    (hedit : env.applyEditOk = true) (hrepl : '\r' ∉ fix.replacement)
    (hwin : findSnippetByLineHint doc snippet fix.startLine fix.endLine = none)
    (hunique : allIndexOf (docTextOf doc) snippet = [i])
    (htol : isWithinTolerance (buildRangeFromIndex (docTextOf doc) i snippet)
      fix.startLine fix.endLine 50 = true) :
    applyFix env fix doc
      = .ok (⟨true, none⟩,
          replaceRange doc (buildRangeFromIndex (docTextOf doc) i snippet) fix.replacement,
          [(buildRangeFromIndex (docTextOf doc) i snippet, fix.replacement)])
    ∧ docTextOf (replaceRange doc (buildRangeFromIndex (docTextOf doc) i snippet)
        fix.replacement)
      = (docTextOf doc).take i ++ fix.replacement
        ++ (docTextOf doc).drop (i + snippet.length) := by
  have hfirst : firstMatch doc snippet fix.startLine fix.endLine
      = some ⟨buildRangeFromIndex (docTextOf doc) i snippet, snippet⟩ := by
    unfold firstMatch
    rw [hwin]
    exact findSnippet_unique_exact doc snippet i ⟨fix.startLine, fix.endLine⟩ hunique htol
  constructor
  · obtain ⟨c, cs, rfl⟩ := List.exists_cons_of_ne_nil hne
    unfold applyFix
    rw [hws, hopen, hsnip, if_neg (by decide : ¬ (true = false)),
      if_neg (by decide : ¬ (true = false))]
    show applyWithSnippet env fix doc (c :: cs) = _
    unfold applyWithSnippet
    rw [hfirst, hedit]
    rfl
  · have hTcr : '\r' ∉ docTextOf doc := not_cr_docTextOf doc hwf
    have hpre : snippet <+: ((docTextOf doc).drop i) := by
      have hmem : i ∈ allIndexOf (docTextOf doc) snippet := by
        rw [hunique]
        exact List.mem_singleton.2 rfl
      have := (List.mem_filter.1 hmem).2
      exact List.isPrefixOf_iff_prefix.1 (by simpa using this)
    obtain ⟨p, q, hR, hcp, hcq, hop, hoq⟩ := buildRange_spec doc hwf i snippet hne hpre
    show docTextOf (replaceRange doc (buildRangeFromIndex (docTextOf doc) i snippet)
        fix.replacement) = _
    unfold replaceRange
    rw [hR]
    show docTextOf (splitEOL (((docTextOf doc).take (posToOff doc (clampPos doc p)))
        ++ fix.replacement ++ ((docTextOf doc).drop (posToOff doc (clampPos doc q))))) = _
    rw [hcp, hcq, hop, hoq]
    have hXcr : '\r' ∉ ((docTextOf doc).take i ++ fix.replacement
        ++ (docTextOf doc).drop (i + snippet.length)) := by
      intro hc
      rcases List.mem_append.1 hc with hc | hc
      · rcases List.mem_append.1 hc with hc | hc
        · exact hTcr (List.mem_of_mem_take hc)
        · exact hrepl hc
      · exact hTcr (List.mem_of_mem_drop hc)
    rw [splitEOL_eq_splitLF _ hXcr]
    show intercalateLF (splitLF _) = _
    rw [intercalateLF_splitLF]

def fixC1w : Fix := ⟨txt r"i", txt r"t", txt r"p", 1, 1, txt r"B", some (txt r"a")⟩

/-- Witness for C1 on the one-line document `["xay"]`: the unique
occurrence of `"a"` at offset 1 is replaced by `"B"`. -/
theorem C1_exact_match_witness :
    applyFix ⟨true, true, true⟩ fixC1w (docL ["xay"])
      = .ok (⟨true, none⟩,
          replaceRange (docL ["xay"])
            (buildRangeFromIndex (docTextOf (docL ["xay"])) 1 (txt r"a")) (txt r"B"),
          [(buildRangeFromIndex (docTextOf (docL ["xay"])) 1 (txt r"a"), txt r"B")])
    ∧ docTextOf (replaceRange (docL ["xay"])
        (buildRangeFromIndex (docTextOf (docL ["xay"])) 1 (txt r"a")) (txt r"B"))
      = (docTextOf (docL ["xay"])).take 1 ++ txt r"B"
        ++ (docTextOf (docL ["xay"])).drop (1 + (txt r"a").length) :=
  C1_exact_match ⟨true, true, true⟩ fixC1w (docL ["xay"]) (txt r"a") 1
    (by decide) rfl (by decide) rfl rfl rfl (by decide) (by decide) (by decide) (by decide)

/-! ## C3: the normalized matcher after the exact searches -/

def blockLineC3 (j : Nat) : Text := [Char.ofNat (1000 + j)]

def fillLineC3 (i : Nat) : Text := [Char.ofNat (2000 + i)]

/-- 205 lines: one filler, a 52-line block whose first line carries a
trailing space, 100 fillers, and an exact 52-line copy of the block at
lines 153-204. -/
def docC3 : Document :=
  [fillLineC3 0, blockLineC3 0 ++ [' ']]
    ++ (List.range 51).map (fun j => blockLineC3 (j + 1))
    ++ (List.range 100).map (fun i => fillLineC3 (i + 1))
    ++ (List.range 52).map blockLineC3

def snipC3 : Text := intercalateLF ((List.range 52).map blockLineC3)

set_option maxRecDepth 100000 in
set_option maxHeartbeats 4000000 in
/-- C3: the claim is FALSE on its "including" clause.  In `docC3` the
snippet occurs literally (only at lines 153-204, outside the 50-line
tolerance band of the hint (103,103)), the windowed search finds nothing,
and `findSnippetInDocument` returns `null` — even though the normalized
matcher, had it been tried with the same hint, would have returned the
in-tolerance match at lines 1-52.  When exact occurrences exist the
normalized half is never reached. -/
theorem C3_normalized_counterexample :
    allIndexOf (docTextOf docC3) snipC3 ≠ []
    ∧ findSnippetByLineHint docC3 snipC3 103 103 = none
    ∧ findSnippetInDocument docC3 snipC3 (some ⟨103, 103⟩) = none
    ∧ (findNormalizedInDocument docC3 snipC3 (some ⟨103, 103⟩)).isSome = true := by
  decide

/-- C3 (amended): the normalized matcher is tried with the same hint
exactly when there is NO exact occurrence in the document: (1) with no
exact occurrence the global search IS the normalized search with the same
hint; (2) when exact occurrences exist but the tolerance filter rejects
them all, the global search returns `null` WITHOUT trying the normalized
matcher; (3) the fuzzy matcher is a fallback consulted only after both
searches of (a)/(b, including c) returned no candidate. -/
theorem C3_normalized (doc : Document) (snippet : Text) (hint : LineHint) :
    (allIndexOf (docTextOf doc) snippet = [] →
      findSnippetInDocument doc snippet (some hint)
        = findNormalizedInDocument doc snippet (some hint))
    ∧ (allIndexOf (docTextOf doc) snippet ≠ [] →
      ((allIndexOf (docTextOf doc) snippet).map (fun idx =>
        (⟨buildRangeFromIndex (docTextOf doc) idx snippet, snippet⟩ : MatchCandidate))).filter
          (fun m => isWithinTolerance m.range hint.startLine hint.endLine 50) = [] →
      findSnippetInDocument doc snippet (some hint) = none)
    ∧ (∀ env fix, fix.expectedOriginalSnippet = some snippet → snippet ≠ [] →
      env.workspaceOpen = true → env.openOk = true → env.applyEditOk = true →
      firstMatch doc snippet fix.startLine fix.endLine = none →
      ∀ fz, findSnippetFuzzyNearLineHint doc snippet fix.startLine fix.endLine = some fz →
      applyFix env fix doc
        = .ok (⟨true, none⟩, replaceRange doc fz.range fix.replacement,
            [(fz.range, fix.replacement)])) := by
  refine ⟨fun h1 => ?_, fun hne hfil => ?_,
    fun env fix hsnip hnes hws hopen hedit hm fz hfz => ?_⟩
  · simp only [findSnippetInDocument, h1, List.map_nil]
    rw [if_neg (by simp)]
  · have hmapne : ((allIndexOf (docTextOf doc) snippet).map (fun idx =>
        (⟨buildRangeFromIndex (docTextOf doc) idx snippet, snippet⟩ : MatchCandidate))) ≠ [] := by
      simpa using hne
    simp only [findSnippetInDocument]
    rw [if_pos hmapne]
    show (if (((allIndexOf (docTextOf doc) snippet).map (fun idx =>
        (⟨buildRangeFromIndex (docTextOf doc) idx snippet, snippet⟩ : MatchCandidate))).filter
          (fun m => isWithinTolerance m.range hint.startLine hint.endLine 50)) ≠ [] then
        (sortByDist (((allIndexOf (docTextOf doc) snippet).map (fun idx =>
          (⟨buildRangeFromIndex (docTextOf doc) idx snippet, snippet⟩ : MatchCandidate))).filter
            (fun m => isWithinTolerance m.range hint.startLine hint.endLine 50))
          hint.startLine hint.endLine).head?
      else none) = none
    rw [hfil]
    simp
  · obtain ⟨c, cs, rfl⟩ := List.exists_cons_of_ne_nil hnes
    unfold applyFix
    rw [hws, hopen, hsnip, if_neg (by decide : ¬ (true = false)),
      if_neg (by decide : ¬ (true = false))]
    show applyWithSnippet env fix doc (c :: cs) = _
    unfold applyWithSnippet
    rw [hm, hfz, hedit]
    rfl

def docC3w2 : Document := (List.range 55).map (fun i => [Char.ofNat (3000 + i)]) ++ [txt r"z"]

def docC3w3 : Document := docL ["p", "x", "r"]

def snipC3w : Text := txt r"p" ++ '\n' :: txt r"q" ++ '\n' :: txt r"r"

def fixC3w : Fix := ⟨txt r"i", txt r"t", txt r"f", 1, 3, txt r"R", some snipC3w⟩

def fzC3w : FuzzyMatch :=
  ⟨⟨⟨0, 0⟩, ⟨2, 1⟩⟩, txt r"p" ++ '\n' :: txt r"x" ++ '\n' :: txt r"r", mkRat 29 30⟩

/-- Witness for C3: (1) on `["ab"]` with snippet `"ab "` (no literal
occurrence) the global search equals the normalized search; (2) on a
56-line document whose only literal occurrence of `"z"` sits 54 lines
below the hint (1,1), the global search returns `null`; (3) on
`["p","x","r"]` with snippet `"p\nq\nr"` both searches fail and `applyFix`
applies the fuzzy match (score 29/30). -/
theorem C3_normalized_witness :
    findSnippetInDocument (docL ["ab"]) (txt r"ab ") (some ⟨1, 1⟩)
        = findNormalizedInDocument (docL ["ab"]) (txt r"ab ") (some ⟨1, 1⟩)
    ∧ findSnippetInDocument docC3w2 (txt r"z") (some ⟨1, 1⟩) = none
    ∧ applyFix ⟨true, true, true⟩ fixC3w docC3w3
        = .ok (⟨true, none⟩, replaceRange docC3w3 fzC3w.range (txt r"R"),
            [(fzC3w.range, txt r"R")]) :=
  ⟨(C3_normalized (docL ["ab"]) (txt r"ab ") ⟨1, 1⟩).1 (by decide),
   (C3_normalized docC3w2 (txt r"z") ⟨1, 1⟩).2.1 (by decide) (by decide),
   (C3_normalized docC3w3 snipC3w ⟨0, 0⟩).2.2 ⟨true, true, true⟩ fixC3w rfl (by decide)
     rfl rfl rfl (by decide) fzC3w (by decide)⟩

end ApplyFixModel

